import Mathlib

/-!
Verification of the text-revision pipeline (diff engine, change classifier,
formatting-preserving patcher, protection classifier, block builder and
correction application) of the `revisor` repository.

Strings are modelled as `List Char`; Python's `str.find`, the `in` operator,
`str.replace(old, new, 1)` and slicing are given by `strFind?`, `strContains`,
`replaceFirst` and `slice` below, with the same semantics (leftmost match,
empty pattern matches at position 0, slices clamp).
-/

namespace Revisor

/-- Python `s.find(pat)`: index of the leftmost occurrence of `pat` in `s`,
`none` when absent (Python returns `-1`). -/
def strFind? (s pat : List Char) : Option Nat :=
  (List.range (s.length + 1)).find? (fun i => pat.isPrefixOf (s.drop i))

/-- Python `pat in s` (substring containment). -/
def strContains (s pat : List Char) : Bool :=
  (strFind? s pat).isSome

/-- Python `s.find(pat)` defaulting to `0` when the pattern is absent; used
only where presence has already been checked. -/
def strFindD (s pat : List Char) : Nat :=
  (strFind? s pat).getD 0

/-- Python `s.replace(pat, rep, 1)`: replace the leftmost occurrence only. -/
def replaceFirst (s pat rep : List Char) : List Char :=
  match strFind? s pat with
  | none => s
  | some i => s.take i ++ rep ++ s.drop (i + pat.length)

/-- Python slice `s[i:j]` (for `i ≤ j`; clamps at the ends like Python). -/
def slice (s : List Char) (i j : Nat) : List Char :=
  (s.drop i).take (j - i)

theorem strFind?_isSome_iff_occurs (s pat : List Char) :
    (strFind? s pat).isSome ↔ pat <:+: s := by
  constructor
  · intro h
    rw [Option.isSome_iff_exists] at h
    obtain ⟨i, hi⟩ := h
    have hmem := List.find?_some hi
    have hpre : pat <+: s.drop i := by
      simpa [List.isPrefixOf_iff_prefix] using hmem
    exact hpre.isInfix.trans (List.drop_suffix i s).isInfix
  · intro h
    obtain ⟨u, v, huv⟩ := h
    rw [Option.isSome_iff_exists]
    have hpre : pat.isPrefixOf (s.drop u.length) = true := by
      rw [List.isPrefixOf_iff_prefix]
      subst huv
      rw [List.append_assoc, List.drop_left]
      exact ⟨v, rfl⟩
    have hlen : u.length < s.length + 1 := by
      subst huv
      simp [List.length_append]
      omega
    have : ∃ x ∈ List.range (s.length + 1),
        (fun i => pat.isPrefixOf (s.drop i)) x = true :=
      ⟨u.length, List.mem_range.2 hlen, hpre⟩
    rw [← List.find?_isSome] at this
    rwa [Option.isSome_iff_exists] at this

theorem strContains_iff_occurs (s pat : List Char) :
    strContains s pat = true ↔ pat <:+: s := by
  simpa [strContains] using strFind?_isSome_iff_occurs s pat

theorem strContains_singleton (s : List Char) (c : Char) :
    strContains s [c] = true ↔ c ∈ s := by
  rw [strContains_iff_occurs]
  constructor
  · intro h
    exact h.mem (List.mem_singleton_self c)
  · intro h
    obtain ⟨u, v, huv⟩ := List.append_of_mem h
    exact ⟨u, v, by simp [huv]⟩

theorem strFind?_some_startsAt {s pat : List Char} {i : Nat}
    (h : strFind? s pat = some i) : pat <+: s.drop i := by
  have := List.find?_some h
  simpa [List.isPrefixOf_iff_prefix] using this

theorem strFind?_some_le {s pat : List Char} {i : Nat}
    (h : strFind? s pat = some i) : i + pat.length ≤ s.length := by
  have hpre := strFind?_some_startsAt h
  have hlen := hpre.length_le
  simp at hlen
  have h' := h
  unfold strFind? at h'
  have hmem := List.mem_of_find?_eq_some h'
  have hi : i < s.length + 1 := List.mem_range.1 hmem
  omega

/-- slices of a list concatenate: `s[i:m] ++ s[m:j] = s[i:j]`. -/
theorem slice_append (s : List Char) {i m j : Nat} (him : i ≤ m) (hmj : m ≤ j) :
    slice s i m ++ slice s m j = slice s i j := by
  unfold slice
  have hdrop : s.drop m = (s.drop i).drop (m - i) := by
    rw [List.drop_drop]
    congr 1
    omega
  rw [hdrop]
  rw [← List.take_add]
  congr 1
  omega

theorem slice_occurs (s : List Char) (i j : Nat) : slice s i j <:+: s :=
  (List.take_prefix _ (s.drop i)).isInfix.trans (List.drop_suffix i s).isInfix

theorem slice_zero_length (s : List Char) : slice s 0 s.length = s := by
  simp [slice]

/-!
## Diff Engine: `difflib.SequenceMatcher(None, a, b)`

The comparer calls `difflib.SequenceMatcher(None, original, revised)` and
consumes `get_opcodes()`.  The embedding below follows CPython's `difflib`
with `isjunk = None` (so `bjunk` is empty: the two junk-extension loops of
`find_longest_match` never fire and the non-junk extension loops have their
`isbjunk` test constantly false) and `autojunk = True` (elements of `b`
occurring more than `len(b)//100 + 1` times are dropped from `b2j` when
`len(b) >= 200`).
-/

/-- Indices at which character `c` occurs in `b` (ascending), as built by
`__chain_b`'s `b2j` dictionary. -/
def occIdxs (b : List Char) (c : Char) : List Nat :=
  (List.range b.length).filter (fun j => b.getD j default = c)

/-- `b2j` lookup after autojunk: "popular" characters (more than
`len(b)//100 + 1` occurrences, only when `len(b) >= 200`) are deleted, and
absent keys yield `[]`. -/
def b2j (b : List Char) (c : Char) : List Nat :=
  if 200 ≤ b.length ∧ b.length / 100 + 1 < (occIdxs b c).length then []
  else occIdxs b c

/-- The running best match `(besti, bestj, bestsize)` of
`find_longest_match`. -/
structure Best where
  i : Nat
  j : Nat
  size : Nat
deriving DecidableEq

/-- Inner loop of `find_longest_match` over `b2j[a[i]]`: `continue` on
`j < blo`, `break` on `j >= bhi`, otherwise chain `j2len` and update the
best triple.  `jlOld` is the previous row `j2len`, `jlNew` the row being
built (`0` encodes an absent key; stored values are always positive). -/
def innerLoop (i blo bhi : Nat) (jlOld : Nat → Nat) :
    List Nat → (Nat → Nat) → Best → ((Nat → Nat) × Best)
  | [], jlNew, best => (jlNew, best)
  | j :: js, jlNew, best =>
    if j < blo then innerLoop i blo bhi jlOld js jlNew best
    else if bhi ≤ j then (jlNew, best)
    else
      let k := (if j = 0 then 0 else jlOld (j - 1)) + 1
      let jlNew' := fun x => if x = j then k else jlNew x
      let best' := if best.size < k then Best.mk (i + 1 - k) (j + 1 - k) k else best
      innerLoop i blo bhi jlOld js jlNew' best'

/-- Outer loop of `find_longest_match` over `i in range(alo, ahi)`. -/
def mainLoop (a b : List Char) (blo bhi : Nat) :
    List Nat → (Nat → Nat) → Best → ((Nat → Nat) × Best)
  | [], jl, best => (jl, best)
  | i :: is, jl, best =>
    let p := innerLoop i blo bhi jl (b2j b (a.getD i default)) (fun _ => 0) best
    mainLoop a b blo bhi is p.1 p.2

/-- First extension loop of `find_longest_match` (backwards over matching
non-junk elements; `bjunk` is empty since `isjunk is None`).  Written with a
fuel argument so that it is structurally recursive and kernel-computable;
`besti` strictly decreases each iteration, so any fuel of at least `best.i`
is inert (`extLowerFuel_congr`). -/
def extLowerFuel (a b : List Char) (alo blo : Nat) : Nat → Best → Best
  | 0, best => best
  | fuel + 1, best =>
    if alo < best.i ∧ blo < best.j ∧
        a.getD (best.i - 1) default = b.getD (best.j - 1) default then
      extLowerFuel a b alo blo fuel (Best.mk (best.i - 1) (best.j - 1) (best.size + 1))
    else best

def extLower (a b : List Char) (alo blo : Nat) (best : Best) : Best :=
  extLowerFuel a b alo blo best.i best

theorem extLowerFuel_congr (a b : List Char) (alo blo : Nat) :
    ∀ (f g : Nat) (best : Best), best.i ≤ f → best.i ≤ g →
      extLowerFuel a b alo blo f best = extLowerFuel a b alo blo g best := by
  intro f
  induction f with
  | zero =>
    intro g best hf _
    have hi : best.i = 0 := by omega
    cases g with
    | zero => rfl
    | succ g =>
      rw [extLowerFuel, extLowerFuel, if_neg]
      intro hcond
      omega
  | succ f ih =>
    intro g best hf hg
    cases g with
    | zero =>
      have hi : best.i = 0 := by omega
      rw [extLowerFuel, extLowerFuel, if_neg]
      intro hcond
      omega
    | succ g =>
      rw [extLowerFuel, extLowerFuel]
      by_cases hcond : alo < best.i ∧ blo < best.j ∧
          a.getD (best.i - 1) default = b.getD (best.j - 1) default
      · rw [if_pos hcond, if_pos hcond]
        exact ih g (Best.mk (best.i - 1) (best.j - 1) (best.size + 1))
          (by simp; omega) (by simp; omega)
      · rw [if_neg hcond, if_neg hcond]

/-- Second extension loop of `find_longest_match` (forwards over matching
non-junk elements), fueled likewise: `ahi - (besti + bestsize)` strictly
decreases each iteration, so any fuel of at least that is inert
(`extUpperFuel_congr`). -/
def extUpperFuel (a b : List Char) (ahi bhi : Nat) : Nat → Best → Best
  | 0, best => best
  | fuel + 1, best =>
    if best.i + best.size < ahi ∧ best.j + best.size < bhi ∧
        a.getD (best.i + best.size) default = b.getD (best.j + best.size) default then
      extUpperFuel a b ahi bhi fuel (Best.mk best.i best.j (best.size + 1))
    else best

def extUpper (a b : List Char) (ahi bhi : Nat) (best : Best) : Best :=
  extUpperFuel a b ahi bhi (ahi - (best.i + best.size)) best

theorem extUpperFuel_congr (a b : List Char) (ahi bhi : Nat) :
    ∀ (f g : Nat) (best : Best),
      ahi - (best.i + best.size) ≤ f → ahi - (best.i + best.size) ≤ g →
      extUpperFuel a b ahi bhi f best = extUpperFuel a b ahi bhi g best := by
  intro f
  induction f with
  | zero =>
    intro g best hf _
    cases g with
    | zero => rfl
    | succ g =>
      rw [extUpperFuel, extUpperFuel, if_neg]
      intro hcond
      omega
  | succ f ih =>
    intro g best hf hg
    cases g with
    | zero =>
      rw [extUpperFuel, extUpperFuel, if_neg]
      intro hcond
      omega
    | succ g =>
      rw [extUpperFuel, extUpperFuel]
      by_cases hcond : best.i + best.size < ahi ∧ best.j + best.size < bhi ∧
          a.getD (best.i + best.size) default = b.getD (best.j + best.size) default
      · rw [if_pos hcond, if_pos hcond]
        exact ih g (Best.mk best.i best.j (best.size + 1))
          (by simp; omega) (by simp; omega)
      · rw [if_neg hcond, if_neg hcond]

/-- `find_longest_match(alo, ahi, blo, bhi)`.  The two junk-extension loops
are omitted because `bjunk` is empty for `SequenceMatcher(None, ..)`. -/
def findLongestMatch (a b : List Char) (alo ahi blo bhi : Nat) : Best :=
  let p := mainLoop a b blo bhi (List.range' alo (ahi - alo)) (fun _ => 0)
    (Best.mk alo blo 0)
  extUpper a b ahi bhi (extLower a b alo blo p.2)

/-- Invariant carried by the best triple: either nothing was matched yet and
it still is the initial `(alo, blo, 0)`, or it denotes a block inside the
window. -/
def BestInv (alo ahi blo bhi : Nat) (m : Best) : Prop :=
  (m.size = 0 ∧ m.i = alo ∧ m.j = blo) ∨
  (alo ≤ m.i ∧ m.i + m.size ≤ ahi ∧ blo ≤ m.j ∧ m.j + m.size ≤ bhi)

/-- Invariant of a `j2len` row: positive entries are bounded by `bound` and
by the distance to `blo`, and live inside `[blo, bhi)`. -/
def JlInv (blo bhi bound : Nat) (jl : Nat → Nat) : Prop :=
  ∀ x, jl x ≠ 0 → jl x ≤ bound ∧ blo ≤ x ∧ x < bhi ∧ jl x ≤ x + 1 - blo

theorem innerLoop_inv {i alo ahi blo bhi : Nat} {jlOld : Nat → Nat}
    (halo : alo ≤ i) (hahi : i < ahi)
    (hold : JlInv blo bhi (i - alo) jlOld) :
    ∀ (js : List Nat) (jlNew : Nat → Nat) (best : Best),
      JlInv blo bhi (i + 1 - alo) jlNew →
      BestInv alo ahi blo bhi best →
      JlInv blo bhi (i + 1 - alo) (innerLoop i blo bhi jlOld js jlNew best).1 ∧
      BestInv alo ahi blo bhi (innerLoop i blo bhi jlOld js jlNew best).2 := by
  intro js
  induction js with
  | nil => intro jlNew best hnew hbest; exact ⟨hnew, hbest⟩
  | cons j js ih =>
    intro jlNew best hnew hbest
    by_cases hjlo : j < blo
    · simpa [innerLoop, hjlo] using ih jlNew best hnew hbest
    · by_cases hjhi : bhi ≤ j
      · simpa [innerLoop, hjlo, hjhi] using ⟨hnew, hbest⟩
      · have hblo : blo ≤ j := by omega
        have hbhi : j < bhi := by omega
        have hk : (if j = 0 then 0 else jlOld (j - 1)) + 1 ≤ i + 1 - alo ∧
            (if j = 0 then 0 else jlOld (j - 1)) + 1 ≤ j + 1 - blo := by
          by_cases hj0 : j = 0
          · simp [hj0]
            omega
          · simp [hj0]
            by_cases hz : jlOld (j - 1) = 0
            · rw [hz]; omega
            · have := hold (j - 1) hz
              omega
        set k := (if j = 0 then 0 else jlOld (j - 1)) + 1 with hkdef
        have hires := ih (fun x => if x = j then k else jlNew x)
          (if best.size < k then Best.mk (i + 1 - k) (j + 1 - k) k else best)
          (by
            intro x hx
            by_cases hxj : x = j
            · subst hxj
              simp at hx ⊢
              omega
            · simp [hxj] at hx ⊢
              exact hnew x hx)
          (by
            by_cases hlt : best.size < k
            · simp [hlt, BestInv]
              omega
            · simpa [hlt] using hbest)
        simpa [innerLoop, hjlo, hjhi, hkdef] using hires

theorem mainLoop_inv {a b : List Char} {alo ahi blo bhi : Nat} :
    ∀ (n i : Nat) (jl : Nat → Nat) (best : Best),
      alo ≤ i → (n = 0 ∨ i + n ≤ ahi) →
      JlInv blo bhi (i - alo) jl →
      BestInv alo ahi blo bhi best →
      BestInv alo ahi blo bhi
        (mainLoop a b blo bhi (List.range' i n) jl best).2 := by
  intro n
  induction n with
  | zero => intro i jl best _ _ _ hbest; simpa [mainLoop] using hbest
  | succ n ih =>
    intro i jl best hlo hhi hjl hbest
    have hstep := @innerLoop_inv i alo ahi blo bhi jl hlo (by omega) hjl
      (b2j b (a.getD i default)) (fun _ => 0) best
      (by intro x hx; simp at hx) hbest
    have := ih (i + 1)
      (innerLoop i blo bhi jl (b2j b (a.getD i default)) (fun _ => 0) best).1
      (innerLoop i blo bhi jl (b2j b (a.getD i default)) (fun _ => 0) best).2
      (by omega) (by omega)
      (by
        have h1 := hstep.1
        have : i + 1 - alo = i + 1 - alo := rfl
        simpa using h1)
      hstep.2
    simpa [List.range', mainLoop] using this

theorem extLowerFuel_inv {a b : List Char} {alo ahi blo bhi : Nat} :
    ∀ (fuel : Nat) (best : Best), BestInv alo ahi blo bhi best →
      BestInv alo ahi blo bhi (extLowerFuel a b alo blo fuel best) := by
  intro fuel
  induction fuel with
  | zero => intro best hbest; exact hbest
  | succ fuel ih =>
    intro best hbest
    rw [extLowerFuel]
    by_cases h : alo < best.i ∧ blo < best.j ∧
        a.getD (best.i - 1) default = b.getD (best.j - 1) default
    · rw [if_pos h]
      apply ih
      rcases hbest with ⟨h0, hi, hj⟩ | hb
      · omega
      · right
        simp
        omega
    · rwa [if_neg h]

theorem extUpperFuel_inv {a b : List Char} {alo ahi blo bhi : Nat} :
    ∀ (fuel : Nat) (best : Best), BestInv alo ahi blo bhi best →
      BestInv alo ahi blo bhi (extUpperFuel a b ahi bhi fuel best) := by
  intro fuel
  induction fuel with
  | zero => intro best hbest; exact hbest
  | succ fuel ih =>
    intro best hbest
    rw [extUpperFuel]
    by_cases h : best.i + best.size < ahi ∧ best.j + best.size < bhi ∧
        a.getD (best.i + best.size) default = b.getD (best.j + best.size) default
    · rw [if_pos h]
      apply ih
      rcases hbest with ⟨h0, hi, hj⟩ | hb
      · right
        simp
        omega
      · right
        simp
        omega
    · rwa [if_neg h]

/-- The triple returned by `find_longest_match` satisfies the window
invariant. -/
theorem findLongestMatch_inv (a b : List Char) (alo ahi blo bhi : Nat) :
    BestInv alo ahi blo bhi (findLongestMatch a b alo ahi blo bhi) := by
  unfold findLongestMatch extUpper extLower
  apply extUpperFuel_inv
  apply extLowerFuel_inv
  apply mainLoop_inv (ahi - alo) alo (fun _ => 0) (Best.mk alo blo 0)
    le_rfl (by omega)
  · intro x hx; simp at hx
  · left; exact ⟨rfl, rfl, rfl⟩

/-- Window bounds of a nonempty longest match. -/
theorem findLongestMatch_bounds {a b : List Char} {alo ahi blo bhi : Nat}
    (h : (findLongestMatch a b alo ahi blo bhi).size ≠ 0) :
    alo ≤ (findLongestMatch a b alo ahi blo bhi).i ∧
    (findLongestMatch a b alo ahi blo bhi).i +
      (findLongestMatch a b alo ahi blo bhi).size ≤ ahi ∧
    blo ≤ (findLongestMatch a b alo ahi blo bhi).j ∧
    (findLongestMatch a b alo ahi blo bhi).j +
      (findLongestMatch a b alo ahi blo bhi).size ≤ bhi := by
  rcases findLongestMatch_inv a b alo ahi blo bhi with ⟨h0, _, _⟩ | hb
  · exact absurd h0 h
  · exact hb

/-- A matching block `(a, b, size)` as in `difflib.Match`. -/
structure MBlock where
  ai : Nat
  bj : Nat
  size : Nat
deriving DecidableEq

/-- The divide-and-conquer traversal of `get_matching_blocks`, written as the
in-order recursion it computes.  CPython uses an explicit LIFO queue and then
sorts the collected blocks; since every collected block has positive size and
the blocks of the left sub-window lie strictly left (in both coordinates) of
the found match, which lies strictly left of the right sub-window's blocks,
sorting the queue's output is exactly this in-order list. -/
def matchingBlocksFuel (a b : List Char) :
    Nat → Nat → Nat → Nat → Nat → List MBlock
  | 0, _, _, _, _ => []
  | fuel + 1, alo, ahi, blo, bhi =>
    if (findLongestMatch a b alo ahi blo bhi).size = 0 then []
    else
      (if alo < (findLongestMatch a b alo ahi blo bhi).i ∧
          blo < (findLongestMatch a b alo ahi blo bhi).j then
        matchingBlocksFuel a b fuel alo (findLongestMatch a b alo ahi blo bhi).i
          blo (findLongestMatch a b alo ahi blo bhi).j else []) ++
      MBlock.mk (findLongestMatch a b alo ahi blo bhi).i
        (findLongestMatch a b alo ahi blo bhi).j
        (findLongestMatch a b alo ahi blo bhi).size ::
      (if (findLongestMatch a b alo ahi blo bhi).i +
            (findLongestMatch a b alo ahi blo bhi).size < ahi ∧
          (findLongestMatch a b alo ahi blo bhi).j +
            (findLongestMatch a b alo ahi blo bhi).size < bhi then
        matchingBlocksFuel a b fuel
          ((findLongestMatch a b alo ahi blo bhi).i +
            (findLongestMatch a b alo ahi blo bhi).size) ahi
          ((findLongestMatch a b alo ahi blo bhi).j +
            (findLongestMatch a b alo ahi blo bhi).size) bhi else [])

def matchingBlocksRec (a b : List Char) (alo ahi blo bhi : Nat) :
    List MBlock :=
  matchingBlocksFuel a b ((ahi - alo) + (bhi - blo) + 1) alo ahi blo bhi

/-- The fuel of `matchingBlocksFuel` is inert: the window size
`(ahi - alo) + (bhi - blo)` strictly shrinks at each recursive call (by the
`find_longest_match` bounds), so any fuel exceeding it gives the same
result.  This shows `matchingBlocksRec` computes the recursion itself, not a
truncation. -/
theorem matchingBlocksFuel_congr (a b : List Char) :
    ∀ (f g alo ahi blo bhi : Nat),
      (ahi - alo) + (bhi - blo) < f → (ahi - alo) + (bhi - blo) < g →
      matchingBlocksFuel a b f alo ahi blo bhi =
        matchingBlocksFuel a b g alo ahi blo bhi := by
  intro f
  induction f with
  | zero => intro g alo ahi blo bhi hf _; omega
  | succ f ih =>
    intro g alo ahi blo bhi hf hg
    cases g with
    | zero => omega
    | succ g =>
      rw [matchingBlocksFuel, matchingBlocksFuel]
      by_cases hk : (findLongestMatch a b alo ahi blo bhi).size = 0
      · rw [if_pos hk, if_pos hk]
      · rw [if_neg hk, if_neg hk]
        have hb := findLongestMatch_bounds hk
        congr 1
        · by_cases h1 : alo < (findLongestMatch a b alo ahi blo bhi).i ∧
              blo < (findLongestMatch a b alo ahi blo bhi).j
          · rw [if_pos h1, if_pos h1]
            exact ih g alo _ blo _ (by omega) (by omega)
          · rw [if_neg h1, if_neg h1]
        · congr 1
          by_cases h2 : (findLongestMatch a b alo ahi blo bhi).i +
                (findLongestMatch a b alo ahi blo bhi).size < ahi ∧
              (findLongestMatch a b alo ahi blo bhi).j +
                (findLongestMatch a b alo ahi blo bhi).size < bhi
          · rw [if_pos h2, if_pos h2]
            exact ih g _ ahi _ bhi (by omega) (by omega)
          · rw [if_neg h2, if_neg h2]

/-- The adjacency-merging pass of `get_matching_blocks` (the `non_adjacent`
loop), carried out with the pending triple `(i1, j1, k1)` as accumulator. -/
def mergeBlocks (i1 j1 k1 : Nat) : List MBlock → List MBlock
  | [] => if k1 = 0 then [] else [MBlock.mk i1 j1 k1]
  | bl :: rest =>
    if i1 + k1 = bl.ai ∧ j1 + k1 = bl.bj then mergeBlocks i1 j1 (k1 + bl.size) rest
    else (if k1 = 0 then [] else [MBlock.mk i1 j1 k1]) ++
      mergeBlocks bl.ai bl.bj bl.size rest

/-- `get_matching_blocks()`: traversal, adjacency merging, and the trailing
sentinel `(len(a), len(b), 0)`. -/
def getMatchingBlocks (a b : List Char) : List MBlock :=
  mergeBlocks 0 0 0 (matchingBlocksRec a b 0 a.length 0 b.length) ++
    [MBlock.mk a.length b.length 0]

/-- Opcode tags of `get_opcodes()`. -/
inductive Tag where
  | equal
  | replace
  | delete
  | insert
deriving DecidableEq

/-- One opcode `(tag, i1, i2, j1, j2)`. -/
structure Opcode where
  tag : Tag
  i1 : Nat
  i2 : Nat
  j1 : Nat
  j2 : Nat
deriving DecidableEq

/-- The loop body of `get_opcodes()`: walk the matching blocks keeping the
cursor `(i, j)`, emit a gap opcode (replace/delete/insert) when the cursor
lags the block, then an equal opcode for the block itself. -/
def opcodesFromBlocks : Nat → Nat → List MBlock → List Opcode
  | _, _, [] => []
  | i, j, bl :: rest =>
    (if i < bl.ai ∧ j < bl.bj then [Opcode.mk Tag.replace i bl.ai j bl.bj]
     else if i < bl.ai then [Opcode.mk Tag.delete i bl.ai j bl.bj]
     else if j < bl.bj then [Opcode.mk Tag.insert i bl.ai j bl.bj]
     else []) ++
    (if bl.size = 0 then [] else
      [Opcode.mk Tag.equal bl.ai (bl.ai + bl.size) bl.bj (bl.bj + bl.size)]) ++
    opcodesFromBlocks (bl.ai + bl.size) (bl.bj + bl.size) rest

/-- `SequenceMatcher(None, a, b).get_opcodes()`. -/
def getOpcodes (a b : List Char) : List Opcode :=
  opcodesFromBlocks 0 0 (getMatchingBlocks a b)

/-- A block list is chained inside the window ending at `(hi, jhi)` when read
from the cursor `(lo, jlo)`: blocks are ordered, non-overlapping, and end
within the window. -/
def Chain (hi jhi : Nat) : Nat → Nat → List MBlock → Prop
  | lo, jlo, [] => lo ≤ hi ∧ jlo ≤ jhi
  | lo, jlo, bl :: rest =>
    lo ≤ bl.ai ∧ jlo ≤ bl.bj ∧ Chain hi jhi (bl.ai + bl.size) (bl.bj + bl.size) rest

theorem Chain.weaken {hi jhi lo jlo lo' jlo' : Nat} {bs : List MBlock}
    (h : Chain hi jhi lo' jlo' bs) (h1 : lo ≤ lo') (h2 : jlo ≤ jlo') :
    Chain hi jhi lo jlo bs := by
  cases bs with
  | nil => exact ⟨h1.trans h.1, h2.trans h.2⟩
  | cons bl rest => exact ⟨h1.trans h.1, h2.trans h.2.1, h.2.2⟩

theorem Chain.append {hi jhi m jm lo jlo : Nat} {xs ys : List MBlock}
    (hx : Chain m jm lo jlo xs) (hy : Chain hi jhi m jm ys) :
    Chain hi jhi lo jlo (xs ++ ys) := by
  induction xs generalizing lo jlo with
  | nil => exact hy.weaken hx.1 hx.2
  | cons bl rest ih => exact ⟨hx.1, hx.2.1, ih hx.2.2⟩

theorem Chain.start_le {hi jhi lo jlo : Nat} {bs : List MBlock}
    (h : Chain hi jhi lo jlo bs) : lo ≤ hi ∧ jlo ≤ jhi := by
  induction bs generalizing lo jlo with
  | nil => exact h
  | cons bl rest ih =>
    have h1 : lo ≤ bl.ai := h.1
    have h2 : jlo ≤ bl.bj := h.2.1
    have := ih h.2.2
    omega

theorem matchingBlocksFuel_chain (a b : List Char) :
    ∀ (fuel alo ahi blo bhi : Nat), (ahi - alo) + (bhi - blo) < fuel →
      alo ≤ ahi → blo ≤ bhi →
      Chain ahi bhi alo blo (matchingBlocksFuel a b fuel alo ahi blo bhi) := by
  intro fuel
  induction fuel with
  | zero => intro alo ahi blo bhi hf; omega
  | succ fuel ih =>
    intro alo ahi blo bhi hf ha hb
    rw [matchingBlocksFuel]
    by_cases hk : (findLongestMatch a b alo ahi blo bhi).size = 0
    · rw [if_pos hk]
      exact ⟨ha, hb⟩
    · have hbd := findLongestMatch_bounds hk
      rw [if_neg hk]
      apply @Chain.append ahi bhi (findLongestMatch a b alo ahi blo bhi).i
        (findLongestMatch a b alo ahi blo bhi).j alo blo _ _
      · by_cases h1 : alo < (findLongestMatch a b alo ahi blo bhi).i ∧
            blo < (findLongestMatch a b alo ahi blo bhi).j
        · rw [if_pos h1]
          exact ih alo _ blo _ (by omega) (by omega) (by omega)
        · rw [if_neg h1]
          exact ⟨hbd.1, hbd.2.2.1⟩
      · refine ⟨le_refl _, le_refl _, ?_⟩
        dsimp only
        by_cases h2 : (findLongestMatch a b alo ahi blo bhi).i +
              (findLongestMatch a b alo ahi blo bhi).size < ahi ∧
            (findLongestMatch a b alo ahi blo bhi).j +
              (findLongestMatch a b alo ahi blo bhi).size < bhi
        · rw [if_pos h2]
          exact ih _ ahi _ bhi (by omega) (by omega) (by omega)
        · rw [if_neg h2]
          exact ⟨hbd.2.1, hbd.2.2.2⟩

theorem matchingBlocksRec_chain (a b : List Char) :
    ∀ (alo ahi blo bhi : Nat), alo ≤ ahi → blo ≤ bhi →
      Chain ahi bhi alo blo (matchingBlocksRec a b alo ahi blo bhi) := by
  intro alo ahi blo bhi ha hb
  exact matchingBlocksFuel_chain a b _ alo ahi blo bhi (by omega) ha hb

theorem mergeBlocks_chain {hi jhi : Nat} :
    ∀ (bs : List MBlock) (i1 j1 k1 : Nat),
      Chain hi jhi (i1 + k1) (j1 + k1) bs →
      Chain hi jhi i1 j1 (mergeBlocks i1 j1 k1 bs) := by
  intro bs
  induction bs with
  | nil =>
    intro i1 j1 k1 h
    have h' : i1 + k1 ≤ hi ∧ j1 + k1 ≤ jhi := h
    by_cases hk : k1 = 0
    · rw [mergeBlocks, if_pos hk]
      exact ⟨by omega, by omega⟩
    · rw [mergeBlocks, if_neg hk]
      exact ⟨le_refl _, le_refl _, h⟩
  | cons bl rest ih =>
    intro i1 j1 k1 h
    by_cases hadj : i1 + k1 = bl.ai ∧ j1 + k1 = bl.bj
    · rw [mergeBlocks, if_pos hadj]
      apply ih
      have := h.2.2
      rw [← Nat.add_assoc, ← Nat.add_assoc, hadj.1, hadj.2]
      exact this
    · rw [mergeBlocks, if_neg hadj]
      have hh1 : i1 + k1 ≤ bl.ai := h.1
      have hh2 : j1 + k1 ≤ bl.bj := h.2.1
      by_cases hk : k1 = 0
      · simp only [hk, if_pos rfl, List.nil_append]
        exact (ih bl.ai bl.bj bl.size h.2.2).weaken (by omega) (by omega)
      · simp only [if_neg hk, List.cons_append, List.nil_append]
        refine ⟨le_refl _, le_refl _, ?_⟩
        exact (ih bl.ai bl.bj bl.size h.2.2).weaken h.1 h.2.1

/-- The merged matching blocks with their sentinel chain across the whole of
`a` and `b`. -/
theorem getMatchingBlocks_chain (a b : List Char) :
    Chain a.length b.length 0 0 (getMatchingBlocks a b) := by
  unfold getMatchingBlocks
  have hrec := matchingBlocksRec_chain a b 0 a.length 0 b.length
    (Nat.zero_le _) (Nat.zero_le _)
  have hmerged : Chain a.length b.length 0 0
      (mergeBlocks 0 0 0 (matchingBlocksRec a b 0 a.length 0 b.length)) :=
    mergeBlocks_chain _ 0 0 0 (by simpa using hrec)
  exact Chain.append hmerged ⟨le_refl _, le_refl _, le_refl _, le_refl _⟩

theorem getMatchingBlocks_getLast (a b : List Char) :
    (getMatchingBlocks a b).getLast? =
      some (MBlock.mk a.length b.length 0) := by
  unfold getMatchingBlocks
  exact List.getLast?_concat _

/-- Concatenation of the original-side (`a`-side) spans of an opcode list. -/
def concatA (a : List Char) (ops : List Opcode) : List Char :=
  (ops.map fun op => slice a op.i1 op.i2).flatten

/-- Concatenation of the revised-side (`b`-side) spans of an opcode list. -/
def concatB (b : List Char) (ops : List Opcode) : List Char :=
  (ops.map fun op => slice b op.j1 op.j2).flatten

theorem concatA_append (a : List Char) (xs ys : List Opcode) :
    concatA a (xs ++ ys) = concatA a xs ++ concatA a ys := by
  simp [concatA]

theorem concatB_append (b : List Char) (xs ys : List Opcode) :
    concatB b (xs ++ ys) = concatB b xs ++ concatB b ys := by
  simp [concatB]

theorem opcodesFromBlocks_concatA (a b : List Char) :
    ∀ (bs : List MBlock) (i j : Nat),
      Chain a.length b.length i j bs →
      bs.getLast? = some (MBlock.mk a.length b.length 0) →
      concatA a (opcodesFromBlocks i j bs) = slice a i a.length := by
  intro bs
  induction bs with
  | nil => intro i j _ hlast; simp at hlast
  | cons bl rest ih =>
    intro i j hchain hlast
    have hia : i ≤ bl.ai := hchain.1
    have hjb : j ≤ bl.bj := hchain.2.1
    have hrest := hchain.2.2
    have hend := hrest.start_le
    cases rest with
    | nil =>
      have hbl : bl = MBlock.mk a.length b.length 0 := by
        simpa using hlast
      subst hbl
      simp only [opcodesFromBlocks, List.append_nil]
      rw [concatA_append]
      simp only [if_pos rfl, concatA, List.map_nil, List.flatten_nil,
        List.append_nil]
      by_cases h1 : i < a.length ∧ j < b.length
      · rw [if_pos h1]
        simp [concatA]
      · rw [if_neg h1]
        by_cases h2 : i < a.length
        · rw [if_pos h2]
          simp [concatA]
        · have hieq : i = a.length := by omega
          subst hieq
          by_cases h3 : j < b.length
          · rw [if_pos h3]
            simp [concatA, slice]
          · rw [if_neg h3]
            simp [concatA, slice]
    | cons bl2 rest2 =>
      have hlast2 : (bl2 :: rest2).getLast? =
          some (MBlock.mk a.length b.length 0) := by
        rwa [List.getLast?_cons_cons] at hlast
      have hrec := ih (bl.ai + bl.size) (bl.bj + bl.size) hrest hlast2
      rw [opcodesFromBlocks, concatA_append, concatA_append, hrec]
      have hgap : concatA a
          (if i < bl.ai ∧ j < bl.bj then [Opcode.mk Tag.replace i bl.ai j bl.bj]
           else if i < bl.ai then [Opcode.mk Tag.delete i bl.ai j bl.bj]
           else if j < bl.bj then [Opcode.mk Tag.insert i bl.ai j bl.bj]
           else []) = slice a i bl.ai := by
        by_cases h1 : i < bl.ai ∧ j < bl.bj
        · rw [if_pos h1]; simp [concatA]
        · rw [if_neg h1]
          by_cases h2 : i < bl.ai
          · rw [if_pos h2]; simp [concatA]
          · have hieq : i = bl.ai := by omega
            subst hieq
            by_cases h3 : j < bl.bj
            · rw [if_pos h3]; simp [concatA, slice]
            · rw [if_neg h3]; simp [concatA, slice]
      have hequal : concatA a
          (if bl.size = 0 then [] else
            [Opcode.mk Tag.equal bl.ai (bl.ai + bl.size) bl.bj (bl.bj + bl.size)]) =
          slice a bl.ai (bl.ai + bl.size) := by
        by_cases hsz : bl.size = 0
        · rw [if_pos hsz]; simp [concatA, slice, hsz]
        · rw [if_neg hsz]; simp [concatA]
      rw [hgap, hequal, slice_append a hia (Nat.le_add_right _ _),
        slice_append a (hia.trans (Nat.le_add_right _ _)) hend.1]

theorem opcodesFromBlocks_concatB (a b : List Char) :
    ∀ (bs : List MBlock) (i j : Nat),
      Chain a.length b.length i j bs →
      bs.getLast? = some (MBlock.mk a.length b.length 0) →
      concatB b (opcodesFromBlocks i j bs) = slice b j b.length := by
  intro bs
  induction bs with
  | nil => intro i j _ hlast; simp at hlast
  | cons bl rest ih =>
    intro i j hchain hlast
    have hia : i ≤ bl.ai := hchain.1
    have hjb : j ≤ bl.bj := hchain.2.1
    have hrest := hchain.2.2
    have hend := hrest.start_le
    cases rest with
    | nil =>
      have hbl : bl = MBlock.mk a.length b.length 0 := by
        simpa using hlast
      subst hbl
      simp only [opcodesFromBlocks, List.append_nil]
      rw [concatB_append]
      simp only [if_pos rfl, concatB, List.map_nil, List.flatten_nil,
        List.append_nil]
      by_cases h1 : i < a.length ∧ j < b.length
      · rw [if_pos h1]
        simp [concatB]
      · rw [if_neg h1]
        by_cases h2 : i < a.length
        · rw [if_pos h2]
          have hjeq : j = b.length := by omega
          subst hjeq
          simp [concatB, slice]
        · rw [if_neg h2]
          by_cases h3 : j < b.length
          · rw [if_pos h3]
            simp [concatB]
          · rw [if_neg h3]
            have hjeq : j = b.length := by omega
            subst hjeq
            simp [concatB, slice]
    | cons bl2 rest2 =>
      have hlast2 : (bl2 :: rest2).getLast? =
          some (MBlock.mk a.length b.length 0) := by
        rwa [List.getLast?_cons_cons] at hlast
      have hrec := ih (bl.ai + bl.size) (bl.bj + bl.size) hrest hlast2
      rw [opcodesFromBlocks, concatB_append, concatB_append, hrec]
      have hgap : concatB b
          (if i < bl.ai ∧ j < bl.bj then [Opcode.mk Tag.replace i bl.ai j bl.bj]
           else if i < bl.ai then [Opcode.mk Tag.delete i bl.ai j bl.bj]
           else if j < bl.bj then [Opcode.mk Tag.insert i bl.ai j bl.bj]
           else []) = slice b j bl.bj := by
        by_cases h1 : i < bl.ai ∧ j < bl.bj
        · rw [if_pos h1]; simp [concatB]
        · rw [if_neg h1]
          by_cases h2 : i < bl.ai
          · rw [if_pos h2]
            have hjeq : j = bl.bj := by omega
            subst hjeq
            simp [concatB, slice]
          · rw [if_neg h2]
            by_cases h3 : j < bl.bj
            · rw [if_pos h3]; simp [concatB]
            · rw [if_neg h3]
              have hjeq : j = bl.bj := by omega
              subst hjeq
              simp [concatB, slice]
      have hequal : concatB b
          (if bl.size = 0 then [] else
            [Opcode.mk Tag.equal bl.ai (bl.ai + bl.size) bl.bj (bl.bj + bl.size)]) =
          slice b bl.bj (bl.bj + bl.size) := by
        by_cases hsz : bl.size = 0
        · rw [if_pos hsz]; simp [concatB, slice, hsz]
        · rw [if_neg hsz]; simp [concatB]
      rw [hgap, hequal, slice_append b hjb (Nat.le_add_right _ _),
        slice_append b (hjb.trans (Nat.le_add_right _ _)) hend.2]

/-- Opcodes are contiguous: each opcode starts where the previous one ended,
spans are forward, and the list runs exactly from `(0, 0)` to `(la, lb)`. -/
def OpChain (la lb : Nat) : Nat → Nat → List Opcode → Prop
  | i, j, [] => i = la ∧ j = lb
  | i, j, op :: rest =>
    op.i1 = i ∧ op.j1 = j ∧ i ≤ op.i2 ∧ j ≤ op.j2 ∧ OpChain la lb op.i2 op.j2 rest

theorem opcodesFromBlocks_opChain (a b : List Char) :
    ∀ (bs : List MBlock) (i j : Nat),
      Chain a.length b.length i j bs →
      bs.getLast? = some (MBlock.mk a.length b.length 0) →
      OpChain a.length b.length i j (opcodesFromBlocks i j bs) := by
  intro bs
  induction bs with
  | nil => intro i j _ hlast; simp at hlast
  | cons bl rest ih =>
    intro i j hchain hlast
    have hia : i ≤ bl.ai := hchain.1
    have hjb : j ≤ bl.bj := hchain.2.1
    have hrest := hchain.2.2
    have htail : OpChain a.length b.length (bl.ai + bl.size) (bl.bj + bl.size)
        (opcodesFromBlocks (bl.ai + bl.size) (bl.bj + bl.size) rest) := by
      cases rest with
      | nil =>
        have hbl : bl = MBlock.mk a.length b.length 0 := by simpa using hlast
        subst hbl
        simp only [opcodesFromBlocks]
        exact ⟨rfl, rfl⟩
      | cons bl2 rest2 =>
        have hlast2 : (bl2 :: rest2).getLast? =
            some (MBlock.mk a.length b.length 0) := by
          rwa [List.getLast?_cons_cons] at hlast
        exact ih (bl.ai + bl.size) (bl.bj + bl.size) hrest hlast2
    have hmid : OpChain a.length b.length bl.ai bl.bj
        ((if bl.size = 0 then [] else
          [Opcode.mk Tag.equal bl.ai (bl.ai + bl.size) bl.bj (bl.bj + bl.size)]) ++
          opcodesFromBlocks (bl.ai + bl.size) (bl.bj + bl.size) rest) := by
      by_cases hsz : bl.size = 0
      · rw [if_pos hsz]
        simpa [hsz] using htail
      · rw [if_neg hsz]
        exact ⟨rfl, rfl, Nat.le_add_right _ _, Nat.le_add_right _ _, htail⟩
    rw [opcodesFromBlocks]
    by_cases h1 : i < bl.ai ∧ j < bl.bj
    · rw [if_pos h1]
      exact ⟨rfl, rfl, hia, hjb, hmid⟩
    · rw [if_neg h1]
      by_cases h2 : i < bl.ai
      · rw [if_pos h2]
        have hjeq : j = bl.bj := by omega
        subst hjeq
        exact ⟨rfl, rfl, hia, le_refl _, hmid⟩
      · have hieq : i = bl.ai := by omega
        subst hieq
        rw [if_neg h2]
        by_cases h3 : j < bl.bj
        · rw [if_pos h3]
          exact ⟨rfl, rfl, le_refl _, hjb, hmid⟩
        · rw [if_neg h3]
          have hjeq : j = bl.bj := by omega
          subst hjeq
          simpa using hmid

/-- **C2.** For all strings `A` and `B`, the opcodes produced by the Diff
Engine (`difflib.SequenceMatcher(None, A, B).get_opcodes()`, used by
`DocumentComparer._analyze_all_changes`) form an ordered gap-free,
overlap-free list running exactly from `(0, 0)` to `(len A, len B)`
(`OpChain`), and concatenating the original-side slices of all opcodes in
order yields exactly `A` while concatenating the revised-side slices yields
exactly `B`. -/
theorem diff_engine_opcodes_reconstruct (a b : List Char) :
    concatA a (getOpcodes a b) = a ∧
    concatB b (getOpcodes a b) = b ∧
    OpChain a.length b.length 0 0 (getOpcodes a b) := by
  have hchain := getMatchingBlocks_chain a b
  have hlast := getMatchingBlocks_getLast a b
  refine ⟨?_, ?_, ?_⟩
  · have := opcodesFromBlocks_concatA a b (getMatchingBlocks a b) 0 0 hchain hlast
    rwa [slice_zero_length] at this
  · have := opcodesFromBlocks_concatB a b (getMatchingBlocks a b) 0 0 hchain hlast
    rwa [slice_zero_length] at this
  · exact opcodesFromBlocks_opChain a b (getMatchingBlocks a b) 0 0 hchain hlast

/-!
## Change Classifier: `DocumentComparer._analyze_all_changes`

Turns `(original, revised)` into a list of typed change records.  Records
carry the Python dict fields used by the claims (`type`, `error`,
`correction`, `description`); the diff-derived records additionally carry
`position` (`i1` of their opcode), which the shortcut and fallback records
lack, hence an `Option`.
-/

/-- One change record produced by `_analyze_all_changes`. -/
structure ChangeRec where
  type : List Char
  error : List Char
  correction : List Char
  description : List Char
  position : Option Nat
deriving DecidableEq

/-- `_analyze_all_changes(original, revised)`: trailing-period and
trailing-comma shortcuts, then a character-level diff mapping `replace` to
substituição, `delete` to remoção and `insert` to adição, and a whole-text
fallback when the diff yielded no records although the texts differ. -/
def analyzeAllChanges (original revised : List Char) : List ChangeRec :=
  if revised = original ++ ['.'] then
    [ChangeRec.mk "pontuação".data "[SEM PONTO FINAL]".data ".".data
      "Adicionado ponto final".data none]
  else if revised = original ++ [','] then
    [ChangeRec.mk "pontuação".data "[SEM VÍRGULA]".data ",".data
      "Adicionada vírgula".data none]
  else
    let changes := (getOpcodes original revised).filterMap fun op =>
      match op.tag with
      | Tag.replace => some (ChangeRec.mk "substituição".data
          (slice original op.i1 op.i2) (slice revised op.j1 op.j2)
          ("\"".data ++ slice original op.i1 op.i2 ++ "\" → \"".data ++
            slice revised op.j1 op.j2 ++ "\"".data) (some op.i1))
      | Tag.delete => some (ChangeRec.mk "remoção".data
          (slice original op.i1 op.i2) []
          ("Removido: \"".data ++ slice original op.i1 op.i2 ++ "\"".data)
          (some op.i1))
      | Tag.insert => some (ChangeRec.mk "adição".data
          [] (slice revised op.j1 op.j2)
          ("Adicionado: \"".data ++ slice revised op.j1 op.j2 ++ "\"".data)
          (some op.i1))
      | Tag.equal => none
    if changes = [] ∧ original ≠ revised then
      [ChangeRec.mk "mudança geral".data original revised
        "Texto completamente alterado".data none]
    else changes

/-- **C5.** For every string `A`, the Change Classifier applied to
`(A, A ++ ".")` returns exactly one punctuation-kind record with correction
`"."`, and applied to `(A, A ++ ",")` exactly one punctuation-kind record
with correction `","`; both shortcuts return before the Diff Engine is
consulted (the equations below are the shortcut branches themselves). -/
theorem change_classifier_trailing_shortcuts (A : List Char) :
    analyzeAllChanges A (A ++ ['.']) =
      [ChangeRec.mk "pontuação".data "[SEM PONTO FINAL]".data ".".data
        "Adicionado ponto final".data none] ∧
    analyzeAllChanges A (A ++ [',']) =
      [ChangeRec.mk "pontuação".data "[SEM VÍRGULA]".data ",".data
        "Adicionada vírgula".data none] := by
  constructor
  · rw [analyzeAllChanges, if_pos rfl]
  · rw [analyzeAllChanges, if_neg (by simp), if_pos rfl]

/-- **C7, counterexample.**  On `("abc", "abc.")` the Change Classifier emits
one record whose kind (`pontuação`) is not the full-rewrite fallback
(`mudança geral`) and whose error span `"[SEM PONTO FINAL]"` is a marker, not
a contiguous substring of the original text `"abc"`. -/
theorem change_record_error_not_substring_cex :
    analyzeAllChanges "abc".data "abc.".data =
      [ChangeRec.mk "pontuação".data "[SEM PONTO FINAL]".data ".".data
        "Adicionado ponto final".data none] ∧
    "pontuação".data ≠ "mudança geral".data ∧
    strContains "abc".data "[SEM PONTO FINAL]".data = false := by
  refine ⟨?_, by decide, by decide⟩
  rw [analyzeAllChanges, if_pos (by decide)]

/-- **C7, amended.**  Every diff-derived record (kinds substituição, remoção,
adição) of the Change Classifier has an error span that is a contiguous
substring of the original text; only the punctuation-shortcut records (whose
error is a fixed marker string) and the full-rewrite fallback are exempt. -/
theorem diff_derived_error_is_substring (orig rev : List Char) (r : ChangeRec)
    (hmem : r ∈ analyzeAllChanges orig rev)
    (htype : r.type = "substituição".data ∨ r.type = "remoção".data ∨
      r.type = "adição".data) :
    r.error <:+: orig := by
  unfold analyzeAllChanges at hmem
  by_cases h1 : rev = orig ++ ['.']
  · rw [if_pos h1] at hmem
    simp at hmem
    rcases htype with h | h | h <;>
      · rw [hmem] at h
        exact absurd h (by decide)
  · rw [if_neg h1] at hmem
    by_cases h2 : rev = orig ++ [',']
    · rw [if_pos h2] at hmem
      simp at hmem
      rcases htype with h | h | h <;>
        · rw [hmem] at h
          exact absurd h (by decide)
    · rw [if_neg h2] at hmem
      by_cases h3 : ((getOpcodes orig rev).filterMap fun op =>
          match op.tag with
          | Tag.replace => some (ChangeRec.mk "substituição".data
              (slice orig op.i1 op.i2) (slice rev op.j1 op.j2)
              ("\"".data ++ slice orig op.i1 op.i2 ++ "\" → \"".data ++
                slice rev op.j1 op.j2 ++ "\"".data) (some op.i1))
          | Tag.delete => some (ChangeRec.mk "remoção".data
              (slice orig op.i1 op.i2) []
              ("Removido: \"".data ++ slice orig op.i1 op.i2 ++ "\"".data)
              (some op.i1))
          | Tag.insert => some (ChangeRec.mk "adição".data
              [] (slice rev op.j1 op.j2)
              ("Adicionado: \"".data ++ slice rev op.j1 op.j2 ++ "\"".data)
              (some op.i1))
          | Tag.equal => none) = [] ∧ orig ≠ rev
      · rw [if_pos h3] at hmem
        simp at hmem
        have ht : r.type = "mudança geral".data := by rw [hmem]
        rcases htype with h | h | h <;>
          · rw [ht] at h
            exact absurd h (by decide)
      · rw [if_neg h3] at hmem
        rw [List.mem_filterMap] at hmem
        obtain ⟨op, _, heq⟩ := hmem
        cases htag : op.tag <;> rw [htag] at heq
        · exact absurd heq (by simp)
        · rw [Option.some_inj] at heq
          rw [← heq]
          exact slice_occurs orig op.i1 op.i2
        · rw [Option.some_inj] at heq
          rw [← heq]
          exact slice_occurs orig op.i1 op.i2
        · rw [Option.some_inj] at heq
          rw [← heq]
          exact ⟨[], orig, by simp⟩

/-- Witness for the amended C7 theorem at the concrete input
`("ab", "ax")`. -/
theorem diff_derived_error_is_substring_witness :
    ("b".data : List Char) <:+: "ab".data := by
  have h := diff_derived_error_is_substring "ab".data "ax".data
    (ChangeRec.mk "substituição".data "b".data "x".data
      "\"b\" → \"x\"".data (some 1)) (by decide) (Or.inl rfl)
  exact h

/-!
## Formatting-Preserving Patcher:
`WordDocumentHandler.apply_correction_preserving_format`

A paragraph is a list of runs; each run has a text and opaque style
attributes (type parameter `α`), of which the function only ever rewrites
the text.  The loop below mirrors the Python source run by run, including
the fact that `current_pos` advances by `len(run.text)` taken *after* the
run's text has been rewritten.
-/

/-- A formatted run: text plus style attributes (never touched). -/
structure Run (α : Type) where
  text : List Char
  style : α
deriving DecidableEq

/-- Concatenation of the texts of a run list (the paragraph's full text). -/
def concatRunTexts {α : Type} (runs : List (Run α)) : List Char :=
  (runs.map fun r => r.text).flatten

/-- The `for run in paragraph.runs` loop of
`apply_correction_preserving_format`, with cursor `pos` (`current_pos`) and
flag `applied` (`correction_applied`).  Returns the final flag and the
rewritten run list; the early `return True` when a run contains the whole
error span leaves the remaining runs untouched. -/
def applyGo {α : Type} (errorPos errorEnd : Nat) (correction : List Char) :
    List (Run α) → Nat → Bool → Bool × List (Run α)
  | [], _, applied => (applied, [])
  | r :: rs, pos, applied =>
    if pos < errorEnd ∧ errorPos < pos + r.text.length then
      let keepStart := if pos < errorPos then r.text.take (errorPos - pos) else []
      let keepEnd := if errorEnd < pos + r.text.length then
        r.text.drop (errorEnd - pos) else []
      let corrPart := if applied then [] else correction
      let newText := keepStart ++ corrPart ++ keepEnd
      if pos ≤ errorPos ∧ errorEnd ≤ pos + r.text.length then
        (true, Run.mk newText r.style :: rs)
      else
        let res := applyGo errorPos errorEnd correction rs (pos + newText.length) true
        (res.1, Run.mk newText r.style :: res.2)
    else if errorPos ≤ pos ∧ pos + r.text.length ≤ errorEnd then
      let res := applyGo errorPos errorEnd correction rs pos applied
      (res.1, Run.mk [] r.style :: res.2)
    else
      let res := applyGo errorPos errorEnd correction rs (pos + r.text.length) applied
      (res.1, r :: res.2)

/-- `apply_correction_preserving_format(paragraph, error_text,
correction_text)`: returns `False` leaving the runs unchanged when the error
is absent from the concatenated text, otherwise walks the runs. -/
def applyCorrectionPreservingFormat {α : Type} (runs : List (Run α))
    (errorText correctionText : List Char) : Bool × List (Run α) :=
  match strFind? (concatRunTexts runs) errorText with
  | none => (false, runs)
  | some errorPos =>
    applyGo errorPos (errorPos + errorText.length) correctionText runs 0 false

theorem concatRunTexts_append {α : Type} (xs ys : List (Run α)) :
    concatRunTexts (xs ++ ys) = concatRunTexts xs ++ concatRunTexts ys := by
  simp [concatRunTexts]

theorem concatRunTexts_cons {α : Type} (r : Run α) (rs : List (Run α)) :
    concatRunTexts (r :: rs) = r.text ++ concatRunTexts rs := by
  simp [concatRunTexts]

/-- **C10.** When the error substring does not occur in the concatenation of
the paragraph's run texts, `apply_correction_preserving_format` returns the
`False` no-op signal and every run (text and style attributes alike) is left
unchanged. -/
theorem patcher_noop_when_error_absent {α : Type} (runs : List (Run α))
    (errorText correctionText : List Char)
    (h : strContains (concatRunTexts runs) errorText = false) :
    applyCorrectionPreservingFormat runs errorText correctionText =
      (false, runs) := by
  unfold applyCorrectionPreservingFormat
  cases hf : strFind? (concatRunTexts runs) errorText with
  | none => rfl
  | some i =>
    unfold strContains at h
    rw [hf] at h
    simp at h

/-- Witness for the C10 theorem at a concrete paragraph. -/
theorem patcher_noop_when_error_absent_witness :
    applyCorrectionPreservingFormat [Run.mk "abc".data (0 : Nat)]
      "zz".data "qq".data = (false, [Run.mk "abc".data 0]) := by
  have h := patcher_noop_when_error_absent (α := Nat)
    [Run.mk "abc".data 0] "zz".data "qq".data (by decide)
  exact h

/-- **C1, counterexample.**  On the paragraph with runs `["ab", "cd"]`, error
`"bc"` (spanning both runs) and replacement `"XYZ"`, the patcher produces
concatenated text `"aXYZcd"` instead of `"aXYZd"` (the original text with
the first occurrence of the error replaced): after splicing the replacement
into the first overlapping run, `current_pos` advances by the *new* text
length, so the second run is no longer recognised as overlapping the error
span and its error characters survive. -/
theorem patcher_multi_run_counterexample :
    concatRunTexts (applyCorrectionPreservingFormat
        [Run.mk "ab".data (0 : Nat), Run.mk "cd".data 1]
        "bc".data "XYZ".data).2 = "aXYZcd".data ∧
    replaceFirst (concatRunTexts [Run.mk "ab".data (0 : Nat), Run.mk "cd".data 1])
        "bc".data "XYZ".data = "aXYZd".data ∧
    concatRunTexts (applyCorrectionPreservingFormat
        [Run.mk "ab".data (0 : Nat), Run.mk "cd".data 1]
        "bc".data "XYZ".data).2 ≠
      replaceFirst (concatRunTexts [Run.mk "ab".data (0 : Nat), Run.mk "cd".data 1])
        "bc".data "XYZ".data := by
  refine ⟨by decide, by decide, by decide⟩

theorem applyGo_before {α : Type} (errorPos errorEnd : Nat) (corr : List Char) :
    ∀ (pre rest : List (Run α)) (pos : Nat) (applied : Bool),
      pos + (concatRunTexts pre).length ≤ errorPos →
      applyGo errorPos errorEnd corr (pre ++ rest) pos applied =
        ((applyGo errorPos errorEnd corr rest
            (pos + (concatRunTexts pre).length) applied).1,
         pre ++ (applyGo errorPos errorEnd corr rest
            (pos + (concatRunTexts pre).length) applied).2) := by
  intro pre
  induction pre with
  | nil =>
    intro rest pos applied _
    simp [concatRunTexts]
  | cons r pre ih =>
    intro rest pos applied hle
    have hlen : concatRunTexts (r :: pre) = r.text ++ concatRunTexts pre :=
      concatRunTexts_cons r pre
    have hle' : pos + r.text.length + (concatRunTexts pre).length ≤ errorPos := by
      rw [hlen] at hle
      simp [List.length_append] at hle
      omega
    rw [List.cons_append, applyGo]
    rw [if_neg (by omega)]
    by_cases h2 : errorPos ≤ pos ∧ pos + r.text.length ≤ errorEnd
    · rw [if_pos h2]
      have hpos : pos = errorPos := by omega
      have hr0 : r.text.length = 0 := by omega
      have hrt : r.text = [] := List.length_eq_zero.mp hr0
      have hres := ih rest pos applied (by omega)
      rw [hres]
      have hrun : Run.mk ([] : List Char) r.style = r := by
        cases r with
        | mk t s =>
          simp at hrt
          rw [hrt]
      rw [hrun]
      have harith : pos + (concatRunTexts (r :: pre)).length =
          pos + (concatRunTexts pre).length := by
        rw [hlen]
        simp [List.length_append, hr0]
      rw [harith]
      simp
    · rw [if_neg h2]
      have hres := ih rest (pos + r.text.length) applied (by omega)
      rw [hres]
      have harith : pos + r.text.length + (concatRunTexts pre).length =
          pos + (concatRunTexts (r :: pre)).length := by
        rw [hlen]
        simp [List.length_append]
        omega
      rw [harith]
      simp

theorem applyGo_hit {α : Type} (errorPos errorEnd : Nat) (corr : List Char)
    (r : Run α) (rest : List (Run α)) (pos : Nat)
    (h1 : pos ≤ errorPos) (h2 : errorEnd ≤ pos + r.text.length)
    (hne : errorPos < errorEnd) :
    applyGo errorPos errorEnd corr (r :: rest) pos false =
      (true, Run.mk (r.text.take (errorPos - pos) ++ corr ++
        r.text.drop (errorEnd - pos)) r.style :: rest) := by
  rw [applyGo]
  rw [if_pos (by omega)]
  rw [if_pos (by omega)]
  have hks : (if pos < errorPos then r.text.take (errorPos - pos) else []) =
      r.text.take (errorPos - pos) := by
    by_cases hp : pos < errorPos
    · rw [if_pos hp]
    · rw [if_neg hp]
      have : errorPos - pos = 0 := by omega
      rw [this, List.take_zero]
  have hke : (if errorEnd < pos + r.text.length then
      r.text.drop (errorEnd - pos) else []) = r.text.drop (errorEnd - pos) := by
    by_cases hp : errorEnd < pos + r.text.length
    · rw [if_pos hp]
    · rw [if_neg hp]
      have : errorEnd - pos = r.text.length := by omega
      rw [this, List.drop_length]
  rw [hks, hke]
  simp

/-- **C1, amended.**  When the first occurrence of the (nonempty) error
substring lies entirely inside a single run `r`, the patcher returns `True`
and rewrites only that run: the runs before and after keep text and style
attributes unchanged, the entire replacement is spliced into `r` alone
(between the kept prefix and suffix of `r`'s text), and the concatenated
text equals the original concatenation with the first occurrence of the
error replaced by the replacement.  (The claim as stated is false when the
error spans several runs, see `patcher_multi_run_counterexample`.) -/
theorem patcher_single_run_correct {α : Type} (pre post : List (Run α))
    (r : Run α) (errorText corrText : List Char) (p : Nat)
    (hne : errorText ≠ [])
    (hfind : strFind? (concatRunTexts (pre ++ r :: post)) errorText = some p)
    (hlo : (concatRunTexts pre).length ≤ p)
    (hhi : p + errorText.length ≤ (concatRunTexts pre).length + r.text.length) :
    applyCorrectionPreservingFormat (pre ++ r :: post) errorText corrText =
      (true, pre ++ Run.mk
        (r.text.take (p - (concatRunTexts pre).length) ++ corrText ++
          r.text.drop (p + errorText.length - (concatRunTexts pre).length))
        r.style :: post) ∧
    concatRunTexts
        (applyCorrectionPreservingFormat (pre ++ r :: post) errorText corrText).2 =
      replaceFirst (concatRunTexts (pre ++ r :: post)) errorText corrText := by
  have hlen1 : 1 ≤ errorText.length := by
    cases errorText with
    | nil => exact absurd rfl hne
    | cons c cs => simp
  have hmain : applyCorrectionPreservingFormat (pre ++ r :: post) errorText corrText =
      (true, pre ++ Run.mk
        (r.text.take (p - (concatRunTexts pre).length) ++ corrText ++
          r.text.drop (p + errorText.length - (concatRunTexts pre).length))
        r.style :: post) := by
    have hstep : applyCorrectionPreservingFormat (pre ++ r :: post) errorText corrText =
        applyGo p (p + errorText.length) corrText (pre ++ r :: post) 0 false := by
      unfold applyCorrectionPreservingFormat
      rw [hfind]
    rw [hstep]
    rw [applyGo_before p (p + errorText.length) corrText
      pre (r :: post) 0 false (by omega)]
    rw [applyGo_hit p (p + errorText.length) corrText
      r post (0 + (concatRunTexts pre).length) (by omega) (by omega) (by omega)]
    have e1 : p - (0 + (concatRunTexts pre).length) =
        p - (concatRunTexts pre).length := by omega
    have e2 : p + errorText.length - (0 + (concatRunTexts pre).length) =
        p + errorText.length - (concatRunTexts pre).length := by omega
    rw [e1, e2]
  refine ⟨hmain, ?_⟩
  rw [hmain]
  have hfull : concatRunTexts (pre ++ r :: post) =
      concatRunTexts pre ++ (r.text ++ concatRunTexts post) := by
    rw [concatRunTexts_append, concatRunTexts_cons]
  have hrepl : replaceFirst (concatRunTexts (pre ++ r :: post)) errorText corrText =
      (concatRunTexts (pre ++ r :: post)).take p ++ corrText ++
        (concatRunTexts (pre ++ r :: post)).drop (p + errorText.length) := by
    unfold replaceFirst
    rw [hfind]
  rw [hrepl]
  have htake : (concatRunTexts (pre ++ r :: post)).take p =
      concatRunTexts pre ++ r.text.take (p - (concatRunTexts pre).length) := by
    rw [hfull, List.take_append_eq_append_take,
      List.take_of_length_le (by omega), List.take_append_eq_append_take]
    have : p - (concatRunTexts pre).length - r.text.length = 0 := by omega
    rw [this, List.take_zero, List.append_nil]
  have hdrop : (concatRunTexts (pre ++ r :: post)).drop (p + errorText.length) =
      r.text.drop (p + errorText.length - (concatRunTexts pre).length) ++
        concatRunTexts post := by
    rw [hfull, List.drop_append_eq_append_drop,
      List.drop_of_length_le (by omega), List.drop_append_eq_append_drop]
    have : p + errorText.length - (concatRunTexts pre).length - r.text.length = 0 := by
      omega
    rw [this, List.drop_zero]
    simp
  rw [htake, hdrop, concatRunTexts_append, concatRunTexts_cons]
  simp [List.append_assoc]

/-- Witness for the amended C1 theorem: the spec's own worked example
`[("Hello ", style 0), ("wrold", style 1)]`, error `"wrold"`, replacement
`"world"`. -/
theorem patcher_single_run_correct_witness :
    applyCorrectionPreservingFormat
        [Run.mk "Hello ".data (0 : Nat), Run.mk "wrold".data 1]
        "wrold".data "world".data =
      (true, [Run.mk "Hello ".data 0, Run.mk "world".data 1]) ∧
    concatRunTexts (applyCorrectionPreservingFormat
        [Run.mk "Hello ".data (0 : Nat), Run.mk "wrold".data 1]
        "wrold".data "world".data).2 = "Hello world".data := by
  have h := patcher_single_run_correct (α := Nat)
    [Run.mk "Hello ".data 0] [] (Run.mk "wrold".data 1)
    "wrold".data "world".data 6 (by decide) (by decide) (by decide) (by decide)
  simp only [List.singleton_append, List.nil_append] at h
  refine ⟨?_, ?_⟩
  · rw [h.1]
    decide
  · rw [h.2]
    decide

/-!
## Block Builder: `DocumentProcessor._create_mixed_blocks`

Of each text-unit dict the builder reads only `current_text` (for its
length), so units are modelled by that one field.  `self.max_chunk_size` is
10000 and the unit cap is the literal 100.
-/

/-- A text unit as consumed by the block builder. -/
structure TextUnit where
  currentText : List Char
deriving DecidableEq

/-- `self.max_chunk_size` of `DocumentProcessor`. -/
def maxChunkSize : Nat := 10000

/-- One iteration of the `_create_mixed_blocks` loop over
`(blocks, current_block, current_size)`. -/
def mixedBlocksStep (st : List (List TextUnit) × List TextUnit × Nat)
    (t : TextUnit) : List (List TextUnit) × List TextUnit × Nat :=
  if maxChunkSize < st.2.2 + t.currentText.length ∨ 100 ≤ st.2.1.length then
    (st.1 ++ (if st.2.1 = [] then [] else [st.2.1]), [t], t.currentText.length)
  else
    (st.1, st.2.1 ++ [t], st.2.2 + t.currentText.length)

/-- `_create_mixed_blocks(texts)` (the trailing `if current_block:` append
written out). -/
def createMixedBlocks (texts : List TextUnit) : List (List TextUnit) :=
  (texts.foldl mixedBlocksStep ([], [], 0)).1 ++
    (if (texts.foldl mixedBlocksStep ([], [], 0)).2.1 = [] then []
     else [(texts.foldl mixedBlocksStep ([], [], 0)).2.1])

/-- Total character length of a block. -/
def blockCharSize (blk : List TextUnit) : Nat :=
  (blk.map fun t => t.currentText.length).sum

set_option maxRecDepth 40000 in
/-- **C6, counterexample.**  With 25 units of 500 characters each and the
configured limits (10000 characters, 100 units), the builder returns two
batches of 20 and 5 units — not 10 and 15 as the claim asserts (20 units of
500 characters exactly fill the 10000-character budget).
(`maxRecDepth` is raised only because kernel evaluation of the 500-character
unit texts recurses deeply.) -/
theorem block_builder_split_counterexample :
    (createMixedBlocks (List.replicate 25
        (TextUnit.mk (List.replicate 500 'x')))).map (fun blk => blk.length) =
      [20, 5] ∧
    ([20, 5] : List Nat) ≠ [10, 15] := by
  refine ⟨by decide, by decide⟩

theorem mixedBlocks_foldl_inv :
    ∀ (texts : List TextUnit) (blocks : List (List TextUnit))
      (cur : List TextUnit) (size : Nat),
      (∀ t ∈ texts, t.currentText.length ≤ maxChunkSize) →
      (∀ blk ∈ blocks, blockCharSize blk ≤ maxChunkSize ∧ blk.length ≤ 100) →
      size = blockCharSize cur → blockCharSize cur ≤ maxChunkSize →
      cur.length ≤ 100 →
      (∀ blk ∈ (texts.foldl mixedBlocksStep (blocks, cur, size)).1,
        blockCharSize blk ≤ maxChunkSize ∧ blk.length ≤ 100) ∧
      (texts.foldl mixedBlocksStep (blocks, cur, size)).2.2 =
        blockCharSize (texts.foldl mixedBlocksStep (blocks, cur, size)).2.1 ∧
      blockCharSize (texts.foldl mixedBlocksStep (blocks, cur, size)).2.1 ≤
        maxChunkSize ∧
      (texts.foldl mixedBlocksStep (blocks, cur, size)).2.1.length ≤ 100 ∧
      (texts.foldl mixedBlocksStep (blocks, cur, size)).1.flatten ++
          (texts.foldl mixedBlocksStep (blocks, cur, size)).2.1 =
        blocks.flatten ++ cur ++ texts := by
  intro texts
  induction texts with
  | nil =>
    intro blocks cur size _ hblocks hsz hcur hlen
    exact ⟨hblocks, hsz, hcur, hlen, by simp⟩
  | cons t ts ih =>
    intro blocks cur size hts hblocks hsz hcur hlen
    have ht : t.currentText.length ≤ maxChunkSize := hts t (by simp)
    have hts' : ∀ u ∈ ts, u.currentText.length ≤ maxChunkSize := by
      intro u hu
      exact hts u (by simp [hu])
    rw [List.foldl_cons]
    by_cases hover : maxChunkSize < size + t.currentText.length ∨ 100 ≤ cur.length
    · have hstep : mixedBlocksStep (blocks, cur, size) t =
          (blocks ++ (if cur = [] then [] else [cur]), [t],
            t.currentText.length) := by
        unfold mixedBlocksStep
        rw [if_pos hover]
      rw [hstep]
      have hres := ih (blocks ++ (if cur = [] then [] else [cur])) [t]
        t.currentText.length hts'
        (by
          intro blk hblk
          rw [List.mem_append] at hblk
          rcases hblk with hblk | hblk
          · exact hblocks blk hblk
          · by_cases hce : cur = []
            · rw [if_pos hce] at hblk
              simp at hblk
            · rw [if_neg hce] at hblk
              simp at hblk
              rw [hblk]
              exact ⟨by omega, hlen⟩)
        (by simp [blockCharSize])
        (by simpa [blockCharSize] using ht)
        (by simp)
      refine ⟨hres.1, hres.2.1, hres.2.2.1, hres.2.2.2.1, ?_⟩
      rw [hres.2.2.2.2]
      by_cases hce : cur = []
      · simp [hce]
      · simp [hce, List.flatten_append]
    · have hstep : mixedBlocksStep (blocks, cur, size) t =
          (blocks, cur ++ [t], size + t.currentText.length) := by
        unfold mixedBlocksStep
        rw [if_neg hover]
      rw [hstep]
      push_neg at hover
      have hres := ih blocks (cur ++ [t]) (size + t.currentText.length) hts'
        hblocks
        (by simp [blockCharSize, hsz])
        (by
          have : blockCharSize (cur ++ [t]) =
              blockCharSize cur + t.currentText.length := by
            simp [blockCharSize]
          omega)
        (by
          simp only [List.length_append, List.length_singleton]
          omega)
      refine ⟨hres.1, hres.2.1, hres.2.2.1, hres.2.2.2.1, ?_⟩
      rw [hres.2.2.2.2]
      simp

set_option maxRecDepth 40000 in
/-- **C6, amended.**  The Block Builder packs greedily left to right without
ever splitting a unit, keeping the unit count of every batch at most 100 and
— provided every single unit fits the budget, which the loop cannot enforce
for an oversized unit — the cumulative character length of every batch at
most `max_chunk_size` (10000); joining the batches in order restores the
input sequence.  On the concrete input of 25 units of 500 characters it
returns two batches of 20 and 5 units (not 10 and 15). -/
theorem block_builder_bounds (texts : List TextUnit)
    (hsz : ∀ t ∈ texts, t.currentText.length ≤ maxChunkSize) :
    (∀ blk ∈ createMixedBlocks texts,
      blockCharSize blk ≤ maxChunkSize ∧ blk.length ≤ 100) ∧
    (createMixedBlocks texts).flatten = texts ∧
    (createMixedBlocks (List.replicate 25
        (TextUnit.mk (List.replicate 500 'x')))).map (fun blk => blk.length) =
      [20, 5] := by
  have hres := mixedBlocks_foldl_inv texts [] [] 0 hsz
    (by intro blk hblk; simp at hblk)
    (by simp [blockCharSize]) (by simp [blockCharSize]) (by simp)
  refine ⟨?_, ?_, by decide⟩
  · intro blk hblk
    unfold createMixedBlocks at hblk
    rw [List.mem_append] at hblk
    rcases hblk with hblk | hblk
    · exact hres.1 blk hblk
    · by_cases hce : (texts.foldl mixedBlocksStep ([], [], 0)).2.1 = []
      · rw [if_pos hce] at hblk
        simp at hblk
      · rw [if_neg hce] at hblk
        simp at hblk
        rw [hblk]
        exact ⟨hres.2.2.1, hres.2.2.2.1⟩
  · unfold createMixedBlocks
    have hjoin := hres.2.2.2.2
    simp at hjoin
    by_cases hce : (texts.foldl mixedBlocksStep ([], [], 0)).2.1 = []
    · rw [if_pos hce]
      rw [hce] at hjoin
      simpa using hjoin
    · rw [if_neg hce]
      simpa using hjoin

set_option maxRecDepth 40000 in
/-- Witness for the amended C6 theorem at the spec's 25-unit input. -/
theorem block_builder_bounds_witness :
    (createMixedBlocks (List.replicate 25
        (TextUnit.mk (List.replicate 500 'x')))).flatten =
      List.replicate 25 (TextUnit.mk (List.replicate 500 'x')) := by
  have h := block_builder_bounds
    (List.replicate 25 (TextUnit.mk (List.replicate 500 'x')))
    (by
      intro t ht
      rw [List.eq_of_mem_replicate ht]
      decide)
  exact h.2.1

/-!
## Protection Classifier: `DocumentProcessor._is_really_protected`

The six regex/substring rules, translated character by character.  Python's
`\s`, `\d`, `\w`, `str.strip`, `str.lower`, `str.upper` are Unicode-aware;
they are modelled here by their ASCII behaviour, which coincides on every
text these rules inspect in the claims.  Each regex below has disjoint
character classes at its decision points, so the greedy translation is
exact.
-/

/-- Python `\s` (ASCII): space, tab, newline, carriage return, vertical tab,
form feed. -/
def isPySpace (c : Char) : Bool :=
  c = ' ' || c = '\t' || c = '\n' || c = '\r' || c = '\x0b' || c = '\x0c'

/-- Python `str.strip()` (ASCII whitespace). -/
def pyStrip (s : List Char) : List Char :=
  ((s.dropWhile isPySpace).reverse.dropWhile isPySpace).reverse

/-- Python `str.lower()` (ASCII). -/
def pyLower (s : List Char) : List Char := s.map Char.toLower

/-- Python `str.upper()` (ASCII). -/
def pyUpper (s : List Char) : List Char := s.map Char.toUpper

def isUpperAZ (c : Char) : Bool := 'A' ≤ c && c ≤ 'Z'

def isLowerAZ (c : Char) : Bool := 'a' ≤ c && c ≤ 'z'

/-- Python `\w` (ASCII): letters, digits, underscore. -/
def isWordChar (c : Char) : Bool := c.isAlphanum || c = '_'

/-- Rule 1: `re.match(r'^[a-eA-E][\)\.][\s]', text)` — quiz option. -/
def isQuizOption (text : List Char) : Bool :=
  match text with
  | c1 :: c2 :: c3 :: _ =>
    (('a' ≤ c1 && c1 ≤ 'e') || ('A' ≤ c1 && c1 ≤ 'E')) &&
      (c2 = ')' || c2 = '.') && isPySpace c3
  | _ => false

/-- The BNCC code pattern `(EF|EM)\d{2}[A-Z]{2}\d{2}` anchored at `i` with
`\b` word boundaries on both sides. -/
def bnccAt (text : List Char) (i : Nat) : Bool :=
  decide (i + 8 ≤ text.length) &&
  text.getD i default = 'E' &&
  (text.getD (i + 1) default = 'F' || text.getD (i + 1) default = 'M') &&
  (text.getD (i + 2) default).isDigit && (text.getD (i + 3) default).isDigit &&
  isUpperAZ (text.getD (i + 4) default) && isUpperAZ (text.getD (i + 5) default) &&
  (text.getD (i + 6) default).isDigit && (text.getD (i + 7) default).isDigit &&
  (decide (i = 0) || !isWordChar (text.getD (i - 1) default)) &&
  (decide (i + 8 = text.length) || !isWordChar (text.getD (i + 8) default))

/-- Rule 2: `re.search(r'\b(EF\d{2}[A-Z]{2}\d{2}|EM\d{2}[A-Z]{2}\d{2})\b',
text)`. -/
def hasBNCC (text : List Char) : Bool :=
  (List.range text.length).any (bnccAt text)

/-- The URL pattern `https?://[^\s]+` anchored at `i` (the optional `s`
cannot backtrack usefully because `s ≠ ':'`). -/
def urlAt (text : List Char) (i : Nat) : Bool :=
  let o := if text.getD (i + 4) default = 's' then i + 5 else i + 4
  "http".data.isPrefixOf (text.drop i) &&
    "://".data.isPrefixOf (text.drop o) &&
    decide (o + 3 < text.length) && !isPySpace (text.getD (o + 3) default)

/-- Rule 3: `re.search(r'https?://[^\s]+', text)`. -/
def hasURL (text : List Char) : Bool :=
  (List.range text.length).any (urlAt text)

/-- Rule 4 (first half): `re.match(r'^[A-Z]+,\s+[A-Z][a-z]+', text)` —
ABNT-style citation start.  Greedy `[A-Z]+` then `,` then `\s+` then an
upper-case letter and at least one lower-case letter. -/
def isAbntStart (text : List Char) : Bool :=
  let ups := text.takeWhile isUpperAZ
  let rest1 := text.drop ups.length
  !ups.isEmpty &&
    (match rest1 with
     | ',' :: rest2 =>
       let sps := rest2.takeWhile isPySpace
       let rest3 := rest2.drop sps.length
       !sps.isEmpty &&
         (match rest3 with
          | c1 :: c2 :: _ => isUpperAZ c1 && isLowerAZ c2
          | _ => false)
     | _ => false)

/-- Rule 5: `text.strip().upper().startswith('GABARITO')`. -/
def startsGabarito (text : List Char) : Bool :=
  "GABARITO".data.isPrefixOf (pyUpper (pyStrip text))

/-- Rule 6: `text.startswith('    ') or text.startswith('\t')`. -/
def isIndented (text : List Char) : Bool :=
  "    ".data.isPrefixOf text || "\t".data.isPrefixOf text

/-- `DocumentProcessor._is_really_protected(text)`: the six early-return
rules in source order. -/
def isReallyProtected (text : List Char) : Bool :=
  if isQuizOption text then true
  else if hasBNCC text then true
  else if hasURL text then true
  else if isAbntStart text && strContains text "Editora".data then true
  else if startsGabarito text then true
  else if isIndented text then true
  else false

/-- **C8.** The Protection Classifier returns `protected = true` for
`"a) Paris"` (quiz option), for `"EF05LP03 something"` (curriculum code) and
for `"Visit https://example.com now"` (URL), and returns `protected = false`
for any text exhibiting none of the six listed pattern features. -/
theorem protection_classifier_cases :
    isReallyProtected "a) Paris".data = true ∧
    isReallyProtected "EF05LP03 something".data = true ∧
    isReallyProtected "Visit https://example.com now".data = true ∧
    (∀ text : List Char,
      isQuizOption text = false → hasBNCC text = false → hasURL text = false →
      (isAbntStart text && strContains text "Editora".data) = false →
      startsGabarito text = false → isIndented text = false →
      isReallyProtected text = false) := by
  refine ⟨by decide, by decide, by decide, ?_⟩
  intro text h1 h2 h3 h4 h5 h6
  simp [isReallyProtected, h1, h2, h3, h4, h5, h6]

/-- Witness for C8 on the plain sentence `"O gato subiu no telhado."`. -/
theorem protection_classifier_cases_witness :
    isReallyProtected "O gato subiu no telhado.".data = false := by
  have h := protection_classifier_cases
  exact h.2.2.2 "O gato subiu no telhado.".data (by decide) (by decide)
    (by decide) (by decide) (by decide) (by decide)

/-!
## Correction validation: `DocumentProcessor._should_apply_correction` and
`DocumentProcessor._apply_correction_safe`

A correction proposal carries a paragraph/text number and the error and
correction strings (its other JSON fields are never read by the code under
verification).  In `_should_apply_correction`, the Python source lists the
quote character `'"'` three times, so the `any(quote in text ...)` test is a
single containment test and `quotes_before` is three times the count of
`'"'` in the prefix.  Of the text-unit dict the validator reads only
`current_text` and `protection_reason`.
-/

/-- A correction proposal `{paragraph/text, error, correction}`. -/
structure Corr where
  paragraph : Nat
  error : List Char
  correction : List Char
deriving DecidableEq

/-- The fields of a text-unit dict read by `_should_apply_correction`. -/
structure PTextData where
  currentText : List Char
  protectionReason : Option (List Char)
deriving DecidableEq

/-- The demonstrative words never altered. -/
def demonstratives : List (List Char) :=
  ["este".data, "esse".data, "esta".data, "essa".data, "isto".data, "isso".data]

/-- `_should_apply_correction(text_data, correction)`: presence check,
demonstrative check, URL check, quotation-parity check (odd number of quote
characters before the error's first occurrence), poem/citation reason
check. -/
def shouldApplyCorrection (td : PTextData) (c : Corr) : Bool :=
  if !strContains td.currentText c.error then false
  else if pyLower c.error ∈ demonstratives then false
  else if strContains td.currentText "http".data &&
      strContains c.error "http".data then false
  else if strContains td.currentText "\"".data &&
      (3 * ((td.currentText.take (strFindD td.currentText c.error)).count '"')) % 2
        = 1 then false
  else if td.protectionReason = some "citação/poema".data then false
  else true

/-- `_apply_correction_safe` on the paragraph's text: rejects empty error or
correction, absent error, and a length change of more than 20; otherwise
replaces the first occurrence.  Returns the success flag and the (possibly
unchanged) paragraph text. -/
def applyCorrectionSafe (origText : List Char) (c : Corr) : Bool × List Char :=
  if c.error = [] ∨ c.correction = [] ∨ ¬ strContains origText c.error then
    (false, origText)
  else
    if 20 < (replaceFirst origText c.error c.correction).length - origText.length +
        (origText.length - (replaceFirst origText c.error c.correction).length) then
      (false, origText)
    else (true, replaceFirst origText c.error c.correction)

/-- The caller's composition (`process_document` step 6): a proposal is
applied only when `_should_apply_correction` passes, and then through
`_apply_correction_safe`; the paragraph's live text is the unit's current
text. -/
def processCorrection (td : PTextData) (c : Corr) : Bool × List Char :=
  if shouldApplyCorrection td c then applyCorrectionSafe td.currentText c
  else (false, td.currentText)

/-- **C9.** If the proposal's error text is not present in the unit's
current text, or it equals (case-lowered) a protected demonstrative word, or
its first occurrence lies inside a quotation (odd number of quote characters
before it), or applying it would change the text length by more than the
fixed bound 20, then the proposal is rejected and the unit's text is left
unchanged.  (Both functions are total — modelled without exceptions —
matching the claim that rejection never raises.) -/
theorem validation_rejects_without_mutation (td : PTextData) (c : Corr)
    (h : strContains td.currentText c.error = false ∨
      pyLower c.error ∈ demonstratives ∨
      (3 * ((td.currentText.take (strFindD td.currentText c.error)).count '"')) % 2
        = 1 ∨
      20 < (replaceFirst td.currentText c.error c.correction).length -
          td.currentText.length +
        (td.currentText.length -
          (replaceFirst td.currentText c.error c.correction).length)) :
    processCorrection td c = (false, td.currentText) := by
  unfold processCorrection
  by_cases hsa : shouldApplyCorrection td c = true
  · rw [if_pos hsa]
    unfold shouldApplyCorrection at hsa
    by_cases hpres : strContains td.currentText c.error = true
    · rw [if_neg (by simp [hpres])] at hsa
      by_cases hdem : pyLower c.error ∈ demonstratives
      · rw [if_pos hdem] at hsa
        exact absurd hsa (by simp)
      · rw [if_neg hdem] at hsa
        rcases h with h | h | h | h
        · rw [h] at hpres
          exact absurd hpres (by simp)
        · exact absurd h hdem
        · by_cases hhttp : strContains td.currentText "http".data ∧
              strContains c.error "http".data
          · rw [if_pos (by simp [hhttp.1, hhttp.2])] at hsa
            exact absurd hsa (by simp)
          · rw [if_neg (by
              intro hcon
              simp at hcon
              exact hhttp ⟨hcon.1, hcon.2⟩)] at hsa
            have hquote : strContains td.currentText "\"".data = true := by
              have hcnt : 0 <
                  (td.currentText.take (strFindD td.currentText c.error)).count '"' := by
                by_contra hz
                push_neg at hz
                interval_cases h' :
                  (td.currentText.take (strFindD td.currentText c.error)).count '"'
                · simp [h'] at h
              have hmem : '"' ∈
                  td.currentText.take (strFindD td.currentText c.error) :=
                List.count_pos_iff.mp hcnt
              exact (strContains_singleton td.currentText '"').mpr
                (List.mem_of_mem_take hmem)
            rw [if_pos (by simp [hquote, h])] at hsa
            exact absurd hsa (by simp)
        · unfold applyCorrectionSafe
          by_cases hgate : c.error = [] ∨ c.correction = [] ∨
              ¬ strContains td.currentText c.error = true
          · rw [if_pos hgate]
          · rw [if_neg hgate, if_pos h]
    · have hf : strContains td.currentText c.error = false := by
        cases hx : strContains td.currentText c.error
        · rfl
        · exact absurd hx hpres
      rw [if_pos (by simp [hf])] at hsa
      exact absurd hsa (by simp)
  · rw [if_neg hsa]

/-- Witness for C9: an absent error text is rejected with the text kept. -/
theorem validation_rejects_without_mutation_witness :
    processCorrection (PTextData.mk "um texto qualquer".data none)
      (Corr.mk 0 "xyz".data "abc".data) =
      (false, "um texto qualquer".data) := by
  have h := validation_rejects_without_mutation
    (PTextData.mk "um texto qualquer".data none)
    (Corr.mk 0 "xyz".data "abc".data) (Or.inl (by decide))
  exact h

/-!
## Smart processor: `SmartDocumentProcessor`

A document is the list of its paragraphs' texts.  `_extract_all_content_fast`
builds the text units (with protection flags), `_create_fast_blocks` adds
the backward reference/signature protection marking and packs the
unprotected units into blocks of at most 50, `_process_single_block_fast`
maps a proposal's block-local paragraph number to the unit's global index
(leaving out-of-range numbers untouched), and `_apply_corrections_fast`
applies the collected proposals in collection order through the
`para_map` built over the document's non-blank paragraphs.  Unread dict
fields (`location_text`, `paragraph_obj`, `protection_reason`, the report
`page`/`location` stamps) are omitted.
-/

/-- A text unit of `_extract_all_content_fast`. -/
structure SUnit where
  index : Nat
  docIndex : Nat
  text : List Char
  page : Nat
  isProtected : Bool
deriving DecidableEq, Inhabited

/-- `marker in text` over a marker list (`any(...)`). -/
def containsAny (s : List Char) (ms : List (List Char)) : Bool :=
  ms.any fun m => strContains s m

/-- Citation/reference markers of `_extract_all_content_fast`. -/
def extractMarkers : List (List Char) :=
  ["Fonte:".data, "Referência:".data, "Extraído de:".data, "Adaptado de:".data,
   "Wikipedia".data, "(Fonte".data, "Disponível em:".data, "Acesso em:".data]

/-- Markers of the "next paragraph is a source" look-ahead. -/
def nextMarkers : List (List Char) :=
  ["Fonte:".data, "Referência:".data, "Wikipedia".data]

/-- `_extract_all_content_fast(doc)`: one unit per non-blank paragraph, with
the estimated page (30 paragraphs per page) and the two protection tests. -/
def extractAllContentFast (doc : List (List Char)) : List SUnit :=
  (List.range doc.length).foldl (fun acc i =>
    let t := doc.getD i []
    if pyStrip t ≠ [] then
      acc ++ [SUnit.mk (acc.length + 1) i t (i / 30 + 1)
        (containsAny (pyStrip t) extractMarkers ||
          (decide (i < doc.length - 1) &&
            containsAny (pyStrip (doc.getD (i + 1) [])) nextMarkers))]
    else acc) []

/-- Signature markers of `_create_fast_blocks`. -/
def signatureMarkers : List (List Char) :=
  ["Atenciosamente".data, "Cordialmente".data, "Um abraço".data, "Abraços".data,
   "Saudações".data, "Respeitosamente".data, "Grato".data, "Obrigado".data]

/-- Reference markers of `_create_fast_blocks`. -/
def referenceMarkers : List (List Char) :=
  ["Disponível em:".data, "Acesso em:".data, "Fonte:".data, "Referência:".data,
   "Adaptado".data, "Extraído de:".data, "Retirado de:".data, "https://".data,
   "http://".data, "www.".data]

/-- Markers at which the backward scan stops (`break`). -/
def backScanStop : List (List Char) :=
  ["Disponível em:".data, "Fonte:".data]

/-- `re.match(r'^\d+[\.\)]', text)`: digits then `.` or `)` (the classes are
disjoint, so the greedy translation is exact). -/
def startsNumbered (t : List Char) : Bool :=
  let ds := t.takeWhile Char.isDigit
  !ds.isEmpty &&
    (match t.drop ds.length with
     | c :: _ => c = '.' || c = ')'
     | [] => false)

/-- `text.endswith('.')`. -/
def endsWithDot (t : List Char) : Bool :=
  match t.getLast? with
  | some c => c = '.'
  | none => false

/-- The backward scan `for j in range(i-1, -1, -1)` of `_create_fast_blocks`:
stops (returning `j + 1`) at a blank line, a numbered question or another
reference, and otherwise keeps moving `start_idx` onto short lines without a
final period (possible titles).  The first argument counts down (`j + 1`). -/
def backScanAux (ps : List SUnit) : Nat → Nat → Nat
  | 0, start => start
  | jp1 + 1, start =>
    let j := jp1
    let t := pyStrip ((ps.getD j default).text)
    if t = [] || startsNumbered t || containsAny t backScanStop then j + 1
    else
      backScanAux ps jp1
        (if decide (t.length < 100) && !endsWithDot t then j else start)

def backScan (ps : List SUnit) (i : Nat) : Nat := backScanAux ps i i

/-- `for k in range(start_idx, i+1): paragraphs[k]['is_protected'] = True`. -/
def setProtectedUpTo (ps : List SUnit) (s i : Nat) : List SUnit :=
  (List.range' s (i + 1 - s)).foldl (fun acc k =>
    if k < acc.length then
      acc.set k
        (let u := acc.getD k default
         SUnit.mk u.index u.docIndex u.text u.page true)
    else acc) ps

/-- The marking pass of `_create_fast_blocks`: any unit carrying a signature
or reference marker protects itself and every unit back to the scan
boundary. -/
def markRefBlocks (ps : List SUnit) : List SUnit :=
  (List.range ps.length).foldl (fun acc i =>
    let t := pyStrip ((acc.getD i default).text)
    if containsAny t signatureMarkers || containsAny t referenceMarkers then
      setProtectedUpTo acc (backScan acc i) i
    else acc) ps

/-- The packing pass of `_create_fast_blocks`: unprotected units are
appended to the current block, which is closed at 50 units or at any
protected unit. -/
def buildFastBlocks (ps : List SUnit) : List (List SUnit) :=
  (ps.foldl (fun (st : List (List SUnit) × List SUnit) p =>
    let cur := if !p.isProtected then st.2 ++ [p] else st.2
    if 50 ≤ cur.length || p.isProtected then
      (st.1 ++ (if cur = [] then [] else [cur]), [])
    else (st.1, cur)) ([], [])).1 ++
  (if (ps.foldl (fun (st : List (List SUnit) × List SUnit) p =>
    let cur := if !p.isProtected then st.2 ++ [p] else st.2
    if 50 ≤ cur.length || p.isProtected then
      (st.1 ++ (if cur = [] then [] else [cur]), [])
    else (st.1, cur)) ([], [])).2 = [] then []
   else [(ps.foldl (fun (st : List (List SUnit) × List SUnit) p =>
    let cur := if !p.isProtected then st.2 ++ [p] else st.2
    if 50 ≤ cur.length || p.isProtected then
      (st.1 ++ (if cur = [] then [] else [cur]), [])
    else (st.1, cur)) ([], [])).2])

/-- `_create_fast_blocks(paragraphs)`: marking then packing.  The Python
function mutates the unit list in place and returns the blocks; the marked
list is returned alongside so the protection flags can be inspected. -/
def createFastBlocks (ps : List SUnit) : List SUnit × List (List SUnit) :=
  (markRefBlocks ps, buildFastBlocks (markRefBlocks ps))

/-- `_process_single_block_fast`'s mapping step: a proposal whose paragraph
number is in `1..len(block)` is renumbered to that unit's global index;
anything else is passed through unchanged. -/
def processSingleBlockFast (block : List SUnit) (corrs : List Corr) : List Corr :=
  corrs.map fun c =>
    if 0 < c.paragraph ∧ c.paragraph ≤ block.length then
      Corr.mk (block.getD (c.paragraph - 1) default).index c.error c.correction
    else c

/-- The `para_map` of `_apply_corrections_fast`: document indices of the
non-blank paragraphs, in order; paragraph number `n` maps to the `n`-th. -/
def nonEmptyParaIdxs (doc : List (List Char)) : List Nat :=
  (List.range doc.length).filter fun i => !(pyStrip (doc.getD i []) = [])

/-- `para_num in para_map` and the lookup (`corr.get('paragraph', 0)` with
key `0` absent from the map). -/
def corrTarget (idxs : List Nat) (c : Corr) : Option Nat :=
  if c.paragraph = 0 then none else idxs.get? (c.paragraph - 1)

/-- A guarded in-place update of one paragraph. -/
def applyAt (i : Nat) (p : List Char → Bool) (f : List Char → List Char)
    (doc : List (List Char)) : List (List Char) :=
  if p (doc.getD i []) then doc.set i (f (doc.getD i [])) else doc

/-- One iteration of the application loop of `_apply_corrections_fast`:
`if error and correction and error in current_text:` replace the first
occurrence. -/
def applyOneCorrection (idxs : List Nat) (doc : List (List Char)) (c : Corr) :
    List (List Char) :=
  match corrTarget idxs c with
  | none => doc
  | some i =>
    applyAt i
      (fun t => !(c.error = []) && !(c.correction = []) && strContains t c.error)
      (fun t => replaceFirst t c.error c.correction) doc

/-- `_apply_corrections_fast(doc, corrections)` restricted to the document
state: the `para_map` is built once over the incoming document, then the
corrections are applied in collection order (no re-sorting of any kind). -/
def applyCorrectionsFast (doc : List (List Char)) (corrs : List Corr) :
    List (List Char) :=
  corrs.foldl (applyOneCorrection (nonEmptyParaIdxs doc)) doc

/-- The failing document for C4: a 100-character first paragraph and a
protected reference paragraph `"Acesso em: bb"`. -/
def docC4 : List (List Char) :=
  [(List.replicate 99 'x') ++ ['.'], "Acesso em: bb".data]

set_option maxRecDepth 100000 in
/-- **C4.** The failing run: on `docC4` the extraction marks paragraph 2
(`"Acesso em: bb"`) protected and the single block contains only paragraph 1,
yet the review service's proposal `{paragraph: 2, error: "bb", correction:
"cc"}` — out of range for the one-unit block — passes through
`_process_single_block_fast` unmapped, collides with the protected unit's
global index in `para_map`, and `_apply_corrections_fast` rewrites the
protected paragraph to `"Acesso em: cc"`. -/
theorem protected_unit_rewritten_on_out_of_range_proposal :
    ((createFastBlocks (extractAllContentFast docC4)).1.getD 1 default).isProtected
        = true ∧
    ((createFastBlocks (extractAllContentFast docC4)).1.getD 1 default).docIndex
        = 1 ∧
    (createFastBlocks (extractAllContentFast docC4)).2 =
      [[SUnit.mk 1 0 ((List.replicate 99 'x') ++ ['.']) 1 false]] ∧
    applyCorrectionsFast docC4
        (processSingleBlockFast
          ((createFastBlocks (extractAllContentFast docC4)).2.getD 0 [])
          [Corr.mk 2 "bb".data "cc".data]) =
      [(List.replicate 99 'x') ++ ['.'], "Acesso em: cc".data] := by
  refine ⟨by decide, by decide, by decide, by decide⟩

/-- The document of the C3 counterexample: three revisable paragraphs, a
protected reference closing the first block, and a final paragraph forming
the second block. -/
def docC3 : List (List Char) :=
  ["Primeiro paragrafo bonito.".data, "Segundo paragrafo bonito.".data,
   "Este paragrafo contem ab dentro dele.".data, "Acesso em: referencia".data,
   "Quinto paragrafo bonito.".data]

/-- The mapped result of block 1 (paragraphs 1-3) for proposal
`{paragraph: 3, error: "ab", correction: "x"}` (in range, renumbered). -/
def batchC3a : List Corr :=
  processSingleBlockFast
    ((createFastBlocks (extractAllContentFast docC3)).2.getD 0 [])
    [Corr.mk 3 "ab".data "x".data]

/-- The mapped result of block 2 (paragraph 5 alone) for proposal
`{paragraph: 3, error: "b", correction: "y"}` (out of range, passed
through, colliding with global paragraph 3). -/
def batchC3b : List Corr :=
  processSingleBlockFast
    ((createFastBlocks (extractAllContentFast docC3)).2.getD 1 [])
    [Corr.mk 3 "b".data "y".data]

/-- **C3, counterexample.**  The two completion orders of the same two batch
results produce different final paragraph texts (`"...contem x..."` versus
`"...contem ay..."`): `_apply_corrections_fast` performs no re-sorting, and
an out-of-range proposal from block 2 collides with block 1's paragraph 3. -/
theorem completion_order_changes_result :
    ([batchC3a, batchC3b] : List (List Corr)).Perm [batchC3b, batchC3a] ∧
    applyCorrectionsFast docC3 ([batchC3a, batchC3b] : List (List Corr)).flatten ≠
      applyCorrectionsFast docC3 ([batchC3b, batchC3a] : List (List Corr)).flatten := by
  exact ⟨List.Perm.swap _ _ _, by decide⟩

/-- Two batches whose corrections target disjoint paragraph numbers. -/
def DisjointBatchTargets (b1 b2 : List Corr) : Prop :=
  ∀ c1 ∈ b1, ∀ c2 ∈ b2, c1.paragraph ≠ c2.paragraph

theorem disjointBatchTargets_symm : Symmetric DisjointBatchTargets :=
  fun _ _ h cy hcy cx hcx => (h cx hcx cy hcy).symm

instance : DecidableRel DisjointBatchTargets := fun b1 b2 => by
  unfold DisjointBatchTargets
  infer_instance

theorem nonEmptyParaIdxs_nodup (doc : List (List Char)) :
    (nonEmptyParaIdxs doc).Nodup := by
  have hlt : (List.range doc.length).Pairwise (· < ·) := List.pairwise_lt_range _
  have hf := hlt.filter (fun i => !(pyStrip (doc.getD i []) = []))
  exact hf.imp Nat.ne_of_lt

theorem corrTarget_injective {idxs : List Nat} (hnd : idxs.Nodup) {c1 c2 : Corr}
    (hne : c1.paragraph ≠ c2.paragraph) {i1 i2 : Nat}
    (h1 : corrTarget idxs c1 = some i1) (h2 : corrTarget idxs c2 = some i2) :
    i1 ≠ i2 := by
  unfold corrTarget at h1 h2
  by_cases hz1 : c1.paragraph = 0
  · rw [if_pos hz1] at h1
    exact absurd h1 (by simp)
  · rw [if_neg hz1] at h1
    by_cases hz2 : c2.paragraph = 0
    · rw [if_pos hz2] at h2
      exact absurd h2 (by simp)
    · rw [if_neg hz2] at h2
      intro heq
      subst heq
      have hlen : c1.paragraph - 1 < idxs.length := by
        rcases List.get?_eq_some.mp h1 with ⟨hl, _⟩
        exact hl
      have := List.get?_inj hlen hnd (h1.trans h2.symm)
      omega

theorem getD_set_ne (l : List (List Char)) {i j : Nat} (h : i ≠ j)
    (a : List Char) : (l.set i a).getD j [] = l.getD j [] := by
  simp [List.getD_eq_getElem?_getD, List.getElem?_set_ne h]

theorem applyAt_comm {i1 i2 : Nat} (hne : i1 ≠ i2)
    (p1 p2 : List Char → Bool) (f1 f2 : List Char → List Char)
    (doc : List (List Char)) :
    applyAt i2 p2 f2 (applyAt i1 p1 f1 doc) =
      applyAt i1 p1 f1 (applyAt i2 p2 f2 doc) := by
  unfold applyAt
  by_cases h1 : p1 (doc.getD i1 []) = true
  · by_cases h2 : p2 (doc.getD i2 []) = true
    · simp only [if_pos h1, getD_set_ne doc hne, if_pos h2,
        getD_set_ne doc hne.symm]
      exact List.set_comm _ _ doc hne
    · simp only [if_pos h1, getD_set_ne doc hne, if_neg h2]
  · by_cases h2 : p2 (doc.getD i2 []) = true
    · simp only [if_neg h1, if_pos h2, getD_set_ne doc hne.symm]
    · simp only [if_neg h1, if_neg h2]

theorem applyOne_comm {idxs : List Nat} (hnd : idxs.Nodup)
    (doc : List (List Char)) {c1 c2 : Corr}
    (hne : c1.paragraph ≠ c2.paragraph) :
    applyOneCorrection idxs (applyOneCorrection idxs doc c1) c2 =
      applyOneCorrection idxs (applyOneCorrection idxs doc c2) c1 := by
  unfold applyOneCorrection
  cases ht1 : corrTarget idxs c1 with
  | none =>
    cases ht2 : corrTarget idxs c2 with
    | none => simp [ht1, ht2]
    | some i2 => simp [ht1, ht2]
  | some i1 =>
    cases ht2 : corrTarget idxs c2 with
    | none => simp [ht1, ht2]
    | some i2 =>
      simp only [ht1, ht2]
      exact applyAt_comm (corrTarget_injective hnd hne ht1 ht2) _ _ _ _ doc

theorem foldl_applyOne_single {idxs : List Nat} (hnd : idxs.Nodup) :
    ∀ (b : List Corr) (s : List (List Char)) (c : Corr),
      (∀ c2 ∈ b, c.paragraph ≠ c2.paragraph) →
      b.foldl (applyOneCorrection idxs) (applyOneCorrection idxs s c) =
        applyOneCorrection idxs (b.foldl (applyOneCorrection idxs) s) c := by
  intro b
  induction b with
  | nil => intro s c _; rfl
  | cons c2 b ih =>
    intro s c hdis
    rw [List.foldl_cons, List.foldl_cons]
    rw [applyOne_comm hnd s (hdis c2 (by simp))]
    exact ih (applyOneCorrection idxs s c2) c
      (fun c3 hc3 => hdis c3 (by simp [hc3]))

theorem foldl_applyOne_swap {idxs : List Nat} (hnd : idxs.Nodup) :
    ∀ (b1 b2 : List Corr), DisjointBatchTargets b1 b2 →
      ∀ s : List (List Char),
      (b1 ++ b2).foldl (applyOneCorrection idxs) s =
        (b2 ++ b1).foldl (applyOneCorrection idxs) s := by
  intro b1
  induction b1 with
  | nil => intro b2 _ s; simp
  | cons c b1 ih =>
    intro b2 hdis s
    rw [List.cons_append, List.foldl_cons, ih b2
      (fun c1 hc1 c2 hc2 => hdis c1 (by simp [hc1]) c2 hc2)
      (applyOneCorrection idxs s c)]
    rw [List.foldl_append, List.foldl_append, List.foldl_cons]
    rw [foldl_applyOne_single hnd b2 s c (fun c2 hc2 => hdis c (by simp) c2 hc2)]

theorem foldl_flatten_perm {idxs : List Nat} (hnd : idxs.Nodup)
    {bs cs : List (List Corr)} (hperm : bs.Perm cs) :
    bs.Pairwise DisjointBatchTargets →
    ∀ s : List (List Char),
      bs.flatten.foldl (applyOneCorrection idxs) s =
        cs.flatten.foldl (applyOneCorrection idxs) s := by
  induction hperm with
  | nil => intro _ s; rfl
  | cons x hperm ih =>
    intro hp s
    rw [List.flatten_cons, List.flatten_cons, List.foldl_append,
      List.foldl_append]
    exact ih hp.of_cons (x.foldl (applyOneCorrection idxs) s)
  | swap x y l =>
    intro hp s
    have hyx : DisjointBatchTargets y x :=
      (List.pairwise_cons.mp hp).1 x (by simp)
    simp only [List.flatten_cons]
    rw [← List.append_assoc, ← List.append_assoc]
    simp only [List.foldl_append]
    congr 1
    rw [← List.foldl_append, ← List.foldl_append]
    exact foldl_applyOne_swap hnd y x hyx s
  | trans h1 h2 ih1 ih2 =>
    intro hp s
    rw [ih1 hp s]
    exact ih2 ((h1.pairwise_iff fun hab => disjointBatchTargets_symm hab).mp hp) s

/-- **C3, amended.**  `_apply_corrections_fast` performs no re-sorting: the
collected corrections are applied in batch completion order.  Provided that
no two corrections from different batches target the same paragraph number
(which holds for in-range-mapped proposals, whose blocks partition the
units, but can be violated by out-of-range pass-through numbers as in the
counterexample), the final paragraph texts are identical for every
completion order of the same batch results. -/
theorem apply_corrections_order_independent (doc : List (List Char))
    (bs cs : List (List Corr)) (hperm : bs.Perm cs)
    (hdisj : bs.Pairwise DisjointBatchTargets) :
    applyCorrectionsFast doc bs.flatten = applyCorrectionsFast doc cs.flatten :=
  foldl_flatten_perm (nonEmptyParaIdxs_nodup doc) hperm hdisj doc

/-- Witness for the amended C3 theorem: two disjoint-target batches applied
in either completion order. -/
theorem apply_corrections_order_independent_witness :
    applyCorrectionsFast ["aa".data, "cc".data]
        ([[Corr.mk 1 "aa".data "b".data], [Corr.mk 2 "cc".data "d".data]] :
          List (List Corr)).flatten =
      applyCorrectionsFast ["aa".data, "cc".data]
        ([[Corr.mk 2 "cc".data "d".data], [Corr.mk 1 "aa".data "b".data]] :
          List (List Corr)).flatten := by
  have h := apply_corrections_order_independent ["aa".data, "cc".data]
    [[Corr.mk 1 "aa".data "b".data], [Corr.mk 2 "cc".data "d".data]]
    [[Corr.mk 2 "cc".data "d".data], [Corr.mk 1 "aa".data "b".data]]
    (List.Perm.swap _ _ _) (by decide)
  exact h

end Revisor
